import Mathlib

/-!
# Verification of the Cognio memory service

Shallow embedding of the memory service of the Cognio repository
(`src/memory.py`, `src/database.py`, `src/embeddings.py`) and proofs about
its core operations: hybrid score fusion, deduplicating save, filtering,
bulk delete and bulk re-embedding.

Numeric scores are modelled with `ℚ` (exact rationals); the floating-point
cosine-similarity kernel and the ISO-8601 date parser are numeric/external
collaborators and are abstracted as function parameters, as is the SHA-256
content hash.  All list-processing logic (normalization, fusion, filtering,
stable sorting, pagination, persistence queries) is translated directly
from the source.
-/

namespace Cognio

/-- Modelled from the spec: the `Memory` record of `src/models.py` (the file
itself is absent from the sources; only its importers are present).  Spec §3:
unique id, raw text, content hash, nullable embedding vector, optional
project label, tags, created-at / updated-at integer epoch seconds, archived
flag.  The optional summary is omitted: it is only echoed into result
projections and no claim mentions it.  Field use matches
`database._row_to_memory`. -/
structure Memory where
  id : String
  text : String
  text_hash : String
  embedding : Option (List ℚ)
  project : Option String
  tags : List String
  created_at : Int
  updated_at : Int
  archived : Bool
  deriving Repr, DecidableEq

/-- Python truthiness of an optional string (`if project:` / `if before_date:`):
`None` and the empty string are falsy. -/
def strTruthy : Option String → Bool
  | none => false
  | some s => !(s == "")

/-- Python truthiness of an optional integer (`if before_timestamp:`):
`None` and `0` are falsy. -/
def intTruthy : Option Int → Bool
  | none => false
  | some t => !(t == 0)

/-! ## Stable descending insertion sort

`list.sort(key=..., reverse=True)` in Python is a *stable* descending sort:
elements whose keys compare equal keep their original relative order.  We
model it by insertion sort; `sortDescBy` places a new element before the
first already-placed element whose key is `≤` its own, which is exactly the
stable behaviour. -/

def insertDescBy {α β : Type} [LinearOrder β] (key : α → β) (x : α) : List α → List α
  | [] => [x]
  | y :: ys => if key x < key y then y :: insertDescBy key x ys else x :: y :: ys

def sortDescBy {α β : Type} [LinearOrder β] (key : α → β) : List α → List α
  | [] => []
  | x :: xs => insertDescBy key x (sortDescBy key xs)

theorem insertDescBy_perm {α β : Type} [LinearOrder β] (key : α → β) (x : α) :
    ∀ l : List α, (insertDescBy key x l).Perm (x :: l)
  | [] => List.Perm.refl _
  | y :: ys => by
    unfold insertDescBy
    by_cases h : key x < key y
    · simp only [h, if_true]
      exact ((insertDescBy_perm key x ys).cons y).trans (List.Perm.swap x y ys)
    · simp only [h, if_false]
      exact List.Perm.refl _

theorem sortDescBy_perm {α β : Type} [LinearOrder β] (key : α → β) :
    ∀ l : List α, (sortDescBy key l).Perm l
  | [] => List.Perm.refl _
  | x :: xs =>
    (insertDescBy_perm key x (sortDescBy key xs)).trans ((sortDescBy_perm key xs).cons x)

theorem mem_insertDescBy {α β : Type} [LinearOrder β] {key : α → β} {x z : α} {l : List α}
    (h : z ∈ insertDescBy key x l) : z = x ∨ z ∈ l :=
  List.mem_cons.mp ((insertDescBy_perm key x l).mem_iff.mp h)

theorem mem_sortDescBy {α β : Type} [LinearOrder β] {key : α → β} {z : α} {l : List α}
    (h : z ∈ sortDescBy key l) : z ∈ l :=
  (sortDescBy_perm key l).mem_iff.mp h

theorem insertDescBy_pairwise_le {α β : Type} [LinearOrder β] (key : α → β) (x : α)
    (l : List α) (hl : l.Pairwise (fun a b => key b ≤ key a)) :
    (insertDescBy key x l).Pairwise (fun a b => key b ≤ key a) := by
  induction l with
  | nil => simp [insertDescBy]
  | cons y ys ih =>
    rw [List.pairwise_cons] at hl
    unfold insertDescBy
    by_cases h : key x < key y
    · simp only [h, if_true]
      rw [List.pairwise_cons]
      refine ⟨fun z hz => ?_, ih hl.2⟩
      rcases mem_insertDescBy hz with rfl | hz
      · exact le_of_lt h
      · exact hl.1 z hz
    · simp only [h, if_false]
      rw [List.pairwise_cons]
      refine ⟨fun z hz => ?_, List.pairwise_cons.mpr hl⟩
      rcases List.mem_cons.mp hz with rfl | hz
      · exact le_of_not_lt h
      · exact le_trans (hl.1 z hz) (le_of_not_lt h)

theorem sortDescBy_pairwise_le {α β : Type} [LinearOrder β] (key : α → β) :
    ∀ l : List α, (sortDescBy key l).Pairwise (fun a b => key b ≤ key a)
  | [] => List.Pairwise.nil
  | x :: xs => insertDescBy_pairwise_le key x _ (sortDescBy_pairwise_le key xs)

/-- Stability: if the input is pairwise related by `R` (e.g. strictly
increasing original positions), then in the sorted output any two elements
with equal keys are still related by `R`. -/
theorem insertDescBy_pairwise_tie {α β : Type} [LinearOrder β] (key : α → β)
    (R : α → α → Prop) (x : α) (l : List α)
    (hl : l.Pairwise (fun a b => key a = key b → R a b))
    (hx : ∀ y ∈ l, R x y) :
    (insertDescBy key x l).Pairwise (fun a b => key a = key b → R a b) := by
  induction l with
  | nil => simp [insertDescBy]
  | cons y ys ih =>
    rw [List.pairwise_cons] at hl
    unfold insertDescBy
    by_cases h : key x < key y
    · simp only [h, if_true]
      rw [List.pairwise_cons]
      refine ⟨fun z hz hkey => ?_, ih hl.2 (fun z hz => hx z (List.mem_cons_of_mem y hz))⟩
      rcases mem_insertDescBy hz with rfl | hz
      · exact absurd hkey.symm (ne_of_lt h)
      · exact hl.1 z hz hkey
    · simp only [h, if_false]
      rw [List.pairwise_cons]
      exact ⟨fun z hz _ => hx z hz, List.pairwise_cons.mpr hl⟩

theorem sortDescBy_pairwise_tie {α β : Type} [LinearOrder β] (key : α → β)
    (R : α → α → Prop) :
    ∀ l : List α, l.Pairwise R →
      (sortDescBy key l).Pairwise (fun a b => key a = key b → R a b)
  | [], _ => List.Pairwise.nil
  | x :: xs, hl => by
    rw [List.pairwise_cons] at hl
    exact insertDescBy_pairwise_tie key R x _
      (sortDescBy_pairwise_tie key R xs hl.2)
      (fun y hy => hl.1 y (mem_sortDescBy hy))

/-- Two key functions that agree in all `<`-comparisons over the elements of a
list produce the same stable sort. -/
theorem insertDescBy_congr {α β γ : Type} [LinearOrder β] [LinearOrder γ]
    (k₁ : α → β) (k₂ : α → γ) (x : α) (l : List α)
    (h : ∀ b ∈ l, (k₁ x < k₁ b ↔ k₂ x < k₂ b)) :
    insertDescBy k₁ x l = insertDescBy k₂ x l := by
  induction l with
  | nil => rfl
  | cons y ys ih =>
    unfold insertDescBy
    have hy := h y (List.mem_cons_self y ys)
    by_cases hxy : k₁ x < k₁ y
    · simp only [hxy, if_true, hy.mp hxy, ih (fun b hb => h b (List.mem_cons_of_mem y hb))]
    · simp only [hxy, if_false, (not_iff_not.mpr hy).mp hxy, ite_false]

theorem sortDescBy_congr {α β γ : Type} [LinearOrder β] [LinearOrder γ]
    (k₁ : α → β) (k₂ : α → γ) :
    ∀ l : List α, (∀ a ∈ l, ∀ b ∈ l, (k₁ a < k₁ b ↔ k₂ a < k₂ b)) →
      sortDescBy k₁ l = sortDescBy k₂ l
  | [], _ => rfl
  | x :: xs, h => by
    unfold sortDescBy
    rw [sortDescBy_congr k₁ k₂ xs
      (fun a ha b hb => h a (List.mem_cons_of_mem x ha) b (List.mem_cons_of_mem x hb))]
    exact insertDescBy_congr k₁ k₂ x _ (fun b hb =>
      h x (List.mem_cons_self x xs) b (List.mem_cons_of_mem x (mem_sortDescBy hb)))

/-- A key-preserving element map commutes with the stable sort. -/
theorem insertDescBy_map {α β : Type} [LinearOrder β] (key : α → β) (f : α → α)
    (hf : ∀ a, key (f a) = key a) (x : α) :
    ∀ l : List α, insertDescBy key (f x) (l.map f) = (insertDescBy key x l).map f
  | [] => rfl
  | y :: ys => by
    unfold insertDescBy
    simp only [List.map_cons, hf]
    by_cases h : key x < key y
    · simp only [h, if_true, insertDescBy_map key f hf x ys, List.map_cons]
    · simp only [h, if_false, List.map_cons]

theorem sortDescBy_map {α β : Type} [LinearOrder β] (key : α → β) (f : α → α)
    (hf : ∀ a, key (f a) = key a) :
    ∀ l : List α, sortDescBy key (l.map f) = (sortDescBy key l).map f
  | [] => rfl
  | x :: xs => by
    rw [List.map_cons]
    show insertDescBy key (f x) (sortDescBy key (xs.map f)) = _
    rw [sortDescBy_map key f hf xs]
    exact insertDescBy_map key f hf x (sortDescBy key xs)

/-! ## Indexed enumeration (`enumerate` over candidate lists) -/

def enumFromL {α : Type} (n : ℕ) : List α → List (ℕ × α)
  | [] => []
  | x :: xs => (n, x) :: enumFromL (n + 1) xs

def enumL {α : Type} (l : List α) : List (ℕ × α) := enumFromL 0 l

theorem enumFromL_length {α : Type} (n : ℕ) :
    ∀ l : List α, (enumFromL n l).length = l.length
  | [] => rfl
  | _ :: xs => by simp [enumFromL, enumFromL_length (n + 1) xs]

theorem enumL_length {α : Type} (l : List α) : (enumL l).length = l.length :=
  enumFromL_length 0 l

theorem mem_enumFromL {α : Type} (n : ℕ) (d : α) :
    ∀ l : List α, ∀ p ∈ enumFromL n l,
      n ≤ p.1 ∧ p.1 - n < l.length ∧ l.getD (p.1 - n) d = p.2
  | [], p, hp => absurd hp (List.not_mem_nil p)
  | x :: xs, p, hp => by
    rcases List.mem_cons.mp hp with rfl | hp
    · simp
    · obtain ⟨h1, h2, h3⟩ := mem_enumFromL (n + 1) d xs p hp
      refine ⟨le_trans (Nat.le_succ n) h1, ?_, ?_⟩
      · simp only [List.length_cons]
        omega
      · have hd : p.1 - n = (p.1 - (n + 1)) + 1 := by omega
        rw [hd]
        simpa using h3

theorem mem_enumL {α : Type} (d : α) {l : List α} {p : ℕ × α} (hp : p ∈ enumL l) :
    p.1 < l.length ∧ l.getD p.1 d = p.2 := by
  obtain ⟨_, h2, h3⟩ := mem_enumFromL 0 d l p hp
  simpa using And.intro h2 h3

theorem enumFromL_pairwise {α : Type} (n : ℕ) :
    ∀ l : List α, (enumFromL n l).Pairwise (fun p q => p.1 < q.1)
  | [] => List.Pairwise.nil
  | x :: xs => by
    rw [enumFromL, List.pairwise_cons]
    refine ⟨fun q hq => ?_, enumFromL_pairwise (n + 1) xs⟩
    exact lt_of_lt_of_le (Nat.lt_succ_self n) (mem_enumFromL (n + 1) x xs q hq).1

theorem enumL_pairwise {α : Type} (l : List α) :
    (enumL l).Pairwise (fun p q => p.1 < q.1) :=
  enumFromL_pairwise 0 l

theorem enumFromL_map_snd {α : Type} (n : ℕ) :
    ∀ l : List α, (enumFromL n l).map Prod.snd = l
  | [] => rfl
  | x :: xs => by simp [enumFromL, enumFromL_map_snd (n + 1) xs]

theorem enumL_map_snd {α : Type} (l : List α) : (enumL l).map Prod.snd = l :=
  enumFromL_map_snd 0 l

theorem enumFromL_getD {α : Type} (n : ℕ) (d : α) :
    ∀ (l : List α) (i : ℕ), i < l.length →
      (enumFromL n l).getD i (0, d) = (n + i, l.getD i d)
  | [], i, hi => absurd hi (by simp)
  | x :: xs, 0, _ => by simp [enumFromL]
  | x :: xs, i + 1, hi => by
    have := enumFromL_getD (n + 1) d xs i (by simpa using Nat.lt_of_succ_lt_succ hi)
    simp only [enumFromL, List.getD_cons_succ, this]
    congr 1
    omega

theorem enumL_getD {α : Type} (d : α) (l : List α) (i : ℕ) (hi : i < l.length) :
    (enumL l).getD i (0, d) = (i, l.getD i d) := by
  simpa using enumFromL_getD 0 d l i hi

theorem getD_map_zero (f : ℚ → ℚ) :
    ∀ (l : List ℚ) (i : ℕ), i < l.length → (l.map f).getD i 0 = f (l.getD i 0)
  | [], i, hi => absurd hi (by simp)
  | _ :: _, 0, _ => rfl
  | _ :: xs, i + 1, hi =>
    getD_map_zero f xs i (by simpa using Nat.lt_of_succ_lt_succ hi)

theorem getD_zipWith_zero (f : ℚ → ℚ → ℚ) :
    ∀ (l₁ l₂ : List ℚ) (i : ℕ), i < l₁.length → i < l₂.length →
      (List.zipWith f l₁ l₂).getD i 0 = f (l₁.getD i 0) (l₂.getD i 0)
  | [], _, i, hi, _ => absurd hi (by simp)
  | _ :: _, [], i, _, hi => absurd hi (by simp)
  | _ :: _, _ :: _, 0, _, _ => rfl
  | _ :: xs, _ :: ys, i + 1, h1, h2 =>
    getD_zipWith_zero f xs ys i (by simpa using Nat.lt_of_succ_lt_succ h1)
      (by simpa using Nat.lt_of_succ_lt_succ h2)

/-! ## Min-max normalization (`search_memory`, steps 4 and 5)

`sem_min = float(np.min(sem_scores)) if sem_scores.size else 0.0` (and the
analogous max with default 1.0); scores are mapped to all-ones when the set
is a singleton or its range is below `1e-12`, otherwise to
`(s - min) / (range + 1e-12)`. -/

/-- The float guard `1e-12` of the source, as an exact rational. -/
def eps : ℚ := 1 / 10 ^ 12

/-- `np.min` over a score list, with the source's empty-default `0.0`. -/
def minL (l : List ℚ) : ℚ :=
  match l with
  | [] => 0
  | x :: xs => xs.foldl min x

/-- `np.max` over a score list, with the source's empty-default `1.0`. -/
def maxL (l : List ℚ) : ℚ :=
  match l with
  | [] => 1
  | x :: xs => xs.foldl max x

/-- The degenerate-case test of the source:
`scores.size == 1 or abs(range) < 1e-12`. -/
def normDegenerate (l : List ℚ) : Bool :=
  l.length == 1 || decide (|maxL l - minL l| < eps)

/-- Min-max normalization exactly as in `search_memory` steps 4/5. -/
def minmaxNorm (l : List ℚ) : List ℚ :=
  if normDegenerate l then l.map (fun _ => 1)
  else l.map (fun s => (s - minL l) / ((maxL l - minL l) + eps))

/-- Division-checked variant: returns `none` if the normalization would ever
divide by a zero denominator (this is what a division-by-zero error would
be in the source; `ℚ` division is otherwise total). -/
def minmaxNormChecked (l : List ℚ) : Option (List ℚ) :=
  if normDegenerate l then some (l.map (fun _ => 1))
  else if (maxL l - minL l) + eps = 0 then none
  else some (l.map (fun s => (s - minL l) / ((maxL l - minL l) + eps)))

theorem foldl_min_le_init : ∀ (ys : List ℚ) (a : ℚ), ys.foldl min a ≤ a
  | [], a => le_refl a
  | y :: ys, a => le_trans (foldl_min_le_init ys (min a y)) (min_le_left a y)

theorem foldl_min_le_mem : ∀ (ys : List ℚ) (a x : ℚ), x ∈ ys → ys.foldl min a ≤ x
  | [], _, x, hx => absurd hx (List.not_mem_nil x)
  | y :: ys, a, x, hx => by
    rcases List.mem_cons.mp hx with rfl | hx
    · exact le_trans (foldl_min_le_init ys (min a x)) (min_le_right a x)
    · exact foldl_min_le_mem ys (min a y) x hx

theorem init_le_foldl_max : ∀ (ys : List ℚ) (a : ℚ), a ≤ ys.foldl max a
  | [], a => le_refl a
  | y :: ys, a => le_trans (le_max_left a y) (init_le_foldl_max ys (max a y))

theorem mem_le_foldl_max : ∀ (ys : List ℚ) (a x : ℚ), x ∈ ys → x ≤ ys.foldl max a
  | [], _, x, hx => absurd hx (List.not_mem_nil x)
  | y :: ys, a, x, hx => by
    rcases List.mem_cons.mp hx with rfl | hx
    · exact le_trans (le_max_right a x) (init_le_foldl_max ys (max a x))
    · exact mem_le_foldl_max ys (max a y) x hx

theorem minL_le_mem {l : List ℚ} {x : ℚ} (hx : x ∈ l) : minL l ≤ x := by
  match l with
  | [] => exact absurd hx (List.not_mem_nil x)
  | y :: ys =>
    rcases List.mem_cons.mp hx with rfl | hx
    · exact foldl_min_le_init ys x
    · exact foldl_min_le_mem ys y x hx

theorem mem_le_maxL {l : List ℚ} {x : ℚ} (hx : x ∈ l) : x ≤ maxL l := by
  match l with
  | [] => exact absurd hx (List.not_mem_nil x)
  | y :: ys =>
    rcases List.mem_cons.mp hx with rfl | hx
    · exact init_le_foldl_max ys x
    · exact mem_le_foldl_max ys y x hx

theorem minL_le_maxL : ∀ (l : List ℚ), minL l ≤ maxL l
  | [] => by norm_num [minL, maxL]
  | y :: ys =>
    le_trans (minL_le_mem (List.mem_cons_self y ys)) (mem_le_maxL (List.mem_cons_self y ys))

theorem eps_pos : (0 : ℚ) < eps := by norm_num [eps]

/-- The normalization denominator is always strictly positive, so the checked
normalization never fails. -/
theorem minmaxNorm_denom_pos (l : List ℚ) : 0 < (maxL l - minL l) + eps :=
  add_pos_of_nonneg_of_pos (sub_nonneg.mpr (minL_le_maxL l)) eps_pos

theorem minmaxNormChecked_eq (l : List ℚ) : minmaxNormChecked l = some (minmaxNorm l) := by
  unfold minmaxNormChecked minmaxNorm
  by_cases h : normDegenerate l
  · simp [h]
  · simp [h, ne_of_gt (minmaxNorm_denom_pos l)]

theorem minmaxNorm_length (l : List ℚ) : (minmaxNorm l).length = l.length := by
  unfold minmaxNorm
  by_cases h : normDegenerate l <;> simp [h]

theorem foldl_min_mem : ∀ (ys : List ℚ) (a : ℚ), ys.foldl min a = a ∨ ys.foldl min a ∈ ys
  | [], a => Or.inl rfl
  | y :: ys, a => by
    show ys.foldl min (min a y) = a ∨ ys.foldl min (min a y) ∈ y :: ys
    rcases foldl_min_mem ys (min a y) with h | h
    · rcases min_choice a y with h' | h'
      · exact Or.inl (h.trans h')
      · exact Or.inr (by rw [h, h']; exact List.mem_cons_self y ys)
    · exact Or.inr (List.mem_cons_of_mem y h)

theorem foldl_max_mem : ∀ (ys : List ℚ) (a : ℚ), ys.foldl max a = a ∨ ys.foldl max a ∈ ys
  | [], a => Or.inl rfl
  | y :: ys, a => by
    show ys.foldl max (max a y) = a ∨ ys.foldl max (max a y) ∈ y :: ys
    rcases foldl_max_mem ys (max a y) with h | h
    · rcases max_choice a y with h' | h'
      · exact Or.inl (h.trans h')
      · exact Or.inr (by rw [h, h']; exact List.mem_cons_self y ys)
    · exact Or.inr (List.mem_cons_of_mem y h)

theorem minL_mem {l : List ℚ} (h : l ≠ []) : minL l ∈ l := by
  match l with
  | [] => exact absurd rfl h
  | y :: ys =>
    rcases foldl_min_mem ys y with h' | h'
    · rw [show minL (y :: ys) = ys.foldl min y from rfl, h']
      exact List.mem_cons_self y ys
    · exact List.mem_cons_of_mem y h'

theorem maxL_mem {l : List ℚ} (h : l ≠ []) : maxL l ∈ l := by
  match l with
  | [] => exact absurd rfl h
  | y :: ys =>
    rcases foldl_max_mem ys y with h' | h'
    · rw [show maxL (y :: ys) = ys.foldl max y from rfl, h']
      exact List.mem_cons_self y ys
    · exact List.mem_cons_of_mem y h'

/-! ## Hybrid candidates and score fusion (`search_memory`, hybrid path)

A candidate that survived the lexical retrieval and filter stage
(`selected` in the source): its BM25 rank, and the semantic side — whether
its stored embedding is present with the configured dimension
(`m.embedding is not None and len(m.embedding) == emb_dim`), and if so the
cosine similarity the numeric kernel computes for it.  The floating-point
cosine kernel itself is external numerics, so the similarity is carried as
data here. -/
structure Cand where
  emb_ok : Bool
  sem : ℚ
  rank : ℚ
  deriving Repr, DecidableEq

/-- NumPy 1-D broadcasting of `alpha * sem_norm + (1.0 - alpha) * bm_norm`:
defined when the shapes are equal or either side has length one; any other
shape combination raises, which we model as `none`. -/
def npBroadcastCombine (alpha : ℚ) (semN bmN : List ℚ) : Option (List ℚ) :=
  if semN.length = bmN.length then
    some (List.zipWith (fun s b => alpha * s + (1 - alpha) * b) semN bmN)
  else
    match semN, bmN with
    | [s], _ => some (bmN.map (fun b => alpha * s + (1 - alpha) * b))
    | _, [b] => some (semN.map (fun s => alpha * s + (1 - alpha) * b))
    | _, _ => none

/-- Steps 3–7 of the hybrid path of `search_memory` (source lines 272–318),
starting from the filtered candidate list `selected`: drop candidates whose
embedding is missing or of the wrong dimension, min-max-normalize both
signals, combine with weight `alpha`, keep combined scores `>= threshold`,
sort descending (stable) and truncate to `limit`.  Results are
`(index of the candidate in selected, combined score)` pairs.  The source
indexes `cand_mems[i]` with positions drawn from the *combined* array and
adds arrays whose lengths can differ (`sem_norm` is over the kept
candidates, `bm25_ranks` over all of `selected`), both of which are fatal
errors in Python; they are modelled as `Except.error`. -/
def hybridStep (alpha thr : ℚ) (limit : ℕ) (selected : List Cand) :
    Except String (List (ℕ × ℚ)) :=
  let candIdx := (enumL selected).filter (fun p => p.2.emb_ok)
  if candIdx.isEmpty then .ok []
  else
    let semN := minmaxNorm (candIdx.map (fun p => p.2.sem))
    let bmN := minmaxNorm (selected.map (fun c => 1 / (1 + c.rank)))
    match npBroadcastCombine alpha semN bmN with
    | none => .error "ValueError: operands could not be broadcast together"
    | some combined =>
      let keep := (enumL combined).filter (fun p => thr ≤ p.2)
      if keep.all (fun p => p.1 < candIdx.length) then
        .ok ((sortDescBy (fun q : ℕ × ℚ => q.2)
          (keep.map (fun p => ((candIdx.getD p.1 (0, ⟨false, 0, 0⟩)).1, p.2)))).take limit)
      else .error "IndexError: list index out of range"

theorem getD_irrel {α : Type} (d₁ d₂ : α) :
    ∀ (l : List α) (i : ℕ), i < l.length → l.getD i d₁ = l.getD i d₂
  | [], i, hi => absurd hi (by simp)
  | _ :: _, 0, _ => rfl
  | _ :: xs, i + 1, hi => getD_irrel d₁ d₂ xs i (by simpa using Nat.lt_of_succ_lt_succ hi)

theorem enumFromL_map_snd_f {α γ : Type} (f : α → γ) (n : ℕ) :
    ∀ l : List α, (enumFromL n l).map (fun p => f p.2) = l.map f
  | [] => rfl
  | x :: xs => by simp [enumFromL, enumFromL_map_snd_f f (n + 1) xs]

theorem enumL_map_snd_f {α γ : Type} (f : α → γ) (l : List α) :
    (enumL l).map (fun p => f p.2) = l.map f :=
  enumFromL_map_snd_f f 0 l

/-- C1: hybrid fusion over a non-empty candidate set all of whose members
carry an embedding of the configured dimension: the pipeline succeeds; at
most `limit` results are returned; results are sorted descending by
combined score with ties keeping the stable candidate order; every returned
result passed the threshold on the combined score, and its score equals
`alpha * normalized_semantic + (1 - alpha) * normalized_lexical`, where the
lexical rank `r` was first inverted to `1 / (1 + r)` and both signals were
min-max normalized over the candidate set. -/
theorem hybrid_fusion_spec (alpha thr : ℚ) (limit : ℕ) (selected : List Cand)
    (hne : selected ≠ []) (hall : ∀ c ∈ selected, c.emb_ok = true) :
    ∃ r, hybridStep alpha thr limit selected = .ok r ∧
      r.length ≤ limit ∧
      r.Pairwise (fun p q : ℕ × ℚ => q.2 ≤ p.2) ∧
      r.Pairwise (fun p q : ℕ × ℚ => p.2 = q.2 → p.1 < q.1) ∧
      ∀ p ∈ r, thr ≤ p.2 ∧ p.1 < selected.length ∧
        p.2 = alpha * ((minmaxNorm (selected.map (fun c => c.sem))).getD p.1 0)
          + (1 - alpha) *
            ((minmaxNorm (selected.map (fun c => 1 / (1 + c.rank)))).getD p.1 0) := by
  have hfilter : (enumL selected).filter (fun p => p.2.emb_ok) = enumL selected := by
    rw [List.filter_eq_self]
    intro p hp
    have hmem : p.2 ∈ selected := by
      have := List.mem_map_of_mem Prod.snd hp
      rwa [enumL_map_snd] at this
    exact hall p.2 hmem
  have hnonnil : enumL selected ≠ [] := by
    intro h
    apply hne
    have := congrArg List.length h
    rw [enumL_length] at this
    exact List.length_eq_zero.mp this
  have hnotempty : (enumL selected).isEmpty = false := by
    simp [List.isEmpty_iff, hnonnil]
  set semN := minmaxNorm (selected.map (fun c => c.sem)) with hsemN
  set bmN := minmaxNorm (selected.map (fun c => 1 / (1 + c.rank))) with hbmN
  have hslen : semN.length = selected.length := by
    rw [hsemN, minmaxNorm_length, List.length_map]
  have hblen : bmN.length = selected.length := by
    rw [hbmN, minmaxNorm_length, List.length_map]
  set combined := List.zipWith (fun s b => alpha * s + (1 - alpha) * b) semN bmN
    with hcombined
  have hclen : combined.length = selected.length := by
    rw [hcombined, List.length_zipWith, hslen, hblen, min_self]
  set keep := (enumL combined).filter (fun p => decide (thr ≤ p.2)) with hkeep
  have hkeep_mem : ∀ p ∈ keep, thr ≤ p.2 ∧ p.1 < selected.length ∧
      combined.getD p.1 0 = p.2 := by
    intro p hp
    rw [hkeep, List.mem_filter] at hp
    obtain ⟨h1, h2⟩ := mem_enumL 0 hp.1
    exact ⟨by simpa using hp.2, hclen ▸ h1, h2⟩
  have hbcast : npBroadcastCombine alpha semN bmN = some combined := by
    unfold npBroadcastCombine
    rw [if_pos (by rw [hslen, hblen])]
  have hall2 : keep.all (fun p => decide (p.1 < (enumL selected).length)) = true := by
    rw [List.all_eq_true]
    intro p hp
    rw [decide_eq_true_eq, enumL_length]
    exact (hkeep_mem p hp).2.1
  have hsem_eq : (enumL selected).map (fun p => p.2.sem) =
      selected.map (fun c => c.sem) := enumL_map_snd_f (fun c => c.sem) selected
  have hmapid : keep.map
      (fun p => (((enumL selected).getD p.1 (0, ⟨false, 0, 0⟩)).1, p.2)) = keep := by
    have h := List.map_congr_left (l := keep)
      (f := fun p : ℕ × ℚ => (((enumL selected).getD p.1 (0, ⟨false, 0, 0⟩)).1, p.2))
      (g := id)
      (by
        intro p hp
        have hlt : p.1 < selected.length := (hkeep_mem p hp).2.1
        show (((enumL selected).getD p.1 (0, ⟨false, 0, 0⟩)).1, p.2) = id p
        rw [enumL_getD ⟨false, 0, 0⟩ selected p.1 hlt]
        rfl)
    rw [h, List.map_id]
  have hstep : hybridStep alpha thr limit selected =
      .ok ((sortDescBy (fun q : ℕ × ℚ => q.2) keep).take limit) := by
    rw [hybridStep]
    simp only [hfilter, hnotempty, Bool.false_eq_true, if_false, hsem_eq]
    rw [← hsemN, ← hbmN, hbcast]
    dsimp only
    rw [← hkeep, if_pos hall2, hmapid]
  refine ⟨(sortDescBy (fun q : ℕ × ℚ => q.2) keep).take limit, hstep, ?_, ?_, ?_, ?_⟩
  · exact List.length_take_le limit _
  · exact (sortDescBy_pairwise_le (fun q : ℕ × ℚ => q.2) keep).sublist
      (List.take_sublist limit _)
  · have hpw : keep.Pairwise (fun p q : ℕ × ℚ => p.1 < q.1) :=
      (enumL_pairwise combined).filter _
    exact (sortDescBy_pairwise_tie (fun q : ℕ × ℚ => q.2) _ keep hpw).sublist
      (List.take_sublist limit _)
  · intro p hp
    have hp' : p ∈ keep :=
      (sortDescBy_perm (fun q : ℕ × ℚ => q.2) keep).mem_iff.mp
        ((List.take_sublist limit _).subset hp)
    obtain ⟨h1, h2, h3⟩ := hkeep_mem p hp'
    refine ⟨h1, h2, ?_⟩
    have h4 : combined.getD p.1 0 =
        alpha * semN.getD p.1 0 + (1 - alpha) * bmN.getD p.1 0 := by
      rw [hcombined, getD_zipWith_zero _ semN bmN p.1 (by rw [hslen]; exact h2)
        (by rw [hblen]; exact h2)]
    rw [← h3, h4]

/-- Witness for C1 at a concrete two-candidate set. -/
theorem hybrid_fusion_spec_witness :
    ∃ r, hybridStep (6/10) 0 5 [⟨true, 1, 1⟩, ⟨true, 1/2, 2⟩] = .ok r ∧
      r.length ≤ 5 ∧
      r.Pairwise (fun p q : ℕ × ℚ => q.2 ≤ p.2) ∧
      r.Pairwise (fun p q : ℕ × ℚ => p.2 = q.2 → p.1 < q.1) ∧
      ∀ p ∈ r, (0:ℚ) ≤ p.2 ∧ p.1 < 2 ∧
        p.2 = (6/10) * ((minmaxNorm ([⟨true, 1, 1⟩, ⟨true, 1/2, 2⟩].map
            (fun c : Cand => c.sem))).getD p.1 0)
          + (1 - 6/10) * ((minmaxNorm ([⟨true, 1, 1⟩, ⟨true, 1/2, 2⟩].map
            (fun c : Cand => 1 / (1 + c.rank)))).getD p.1 0) :=
  hybrid_fusion_spec (6/10) 0 5 [⟨true, 1, 1⟩, ⟨true, 1/2, 2⟩]
    (by simp) (by decide)

/-- C4: in the fusion pipeline's min-max normalization, a candidate set with
exactly one element, or with all scores equal, is normalized to all-ones
(1.0 for every candidate) and no division by zero occurs (the checked
normalization succeeds). -/
theorem minmax_degenerate_all_ones (l : List ℚ)
    (h : l.length = 1 ∨ ∀ x ∈ l, ∀ y ∈ l, x = y) :
    minmaxNormChecked l = some (List.replicate l.length 1) := by
  have hch := minmaxNormChecked_eq l
  cases l with
  | nil =>
    rw [hch]
    norm_num [minmaxNorm, normDegenerate, minL, maxL, eps]
  | cons y ys =>
    have hdeg : normDegenerate (y :: ys) = true := by
      rcases h with h | h
      · simp [normDegenerate, h]
      · have h1 : minL (y :: ys) ∈ y :: ys := minL_mem (by simp)
        have h2 : maxL (y :: ys) ∈ y :: ys := maxL_mem (by simp)
        have heq : maxL (y :: ys) - minL (y :: ys) = 0 :=
          sub_eq_zero.mpr (h _ h2 _ h1)
        simp [normDegenerate, heq, eps_pos]
    rw [hch, minmaxNorm, hdeg]
    simp [List.replicate_succ]

/-- Witness for C4 at the singleton candidate set `[5]`. -/
theorem minmax_degenerate_all_ones_witness :
    minmaxNormChecked [(5 : ℚ)] = some [1] :=
  minmax_degenerate_all_ones [(5 : ℚ)] (Or.inl rfl)

/-! ## Ranking orders induced by the fusion weights (C5) -/

/-- The raw semantic similarities of the candidate set (`sem_scores`). -/
def semScores (cands : List Cand) : List ℚ := cands.map (fun c => c.sem)

/-- The inverted lexical ranks `1 / (1 + rank)` (`bm25_inv`). -/
def bmInvScores (cands : List Cand) : List ℚ := cands.map (fun c => 1 / (1 + c.rank))

/-- Combined fused scores (step 6) in the aligned case where every candidate
carries a valid embedding. -/
def combinedScores (alpha : ℚ) (cands : List Cand) : List ℚ :=
  List.zipWith (fun s b => alpha * s + (1 - alpha) * b)
    (minmaxNorm (semScores cands)) (minmaxNorm (bmInvScores cands))

/-- Candidate positions in ranked order under the stable descending sort on a
per-candidate score list (the sort of step 7 before threshold/limit). -/
def rankingOf (scores : List ℚ) (cands : List Cand) : List ℕ :=
  (sortDescBy (fun p : ℕ × Cand => scores.getD p.1 0) (enumL cands)).map Prod.fst

/-- The ranking produced by hybrid fusion with weight `alpha`. -/
def fusionRanking (alpha : ℚ) (cands : List Cand) : List ℕ :=
  rankingOf (combinedScores alpha cands) cands

/-- Ranking by raw semantic similarity alone (descending, stable), as in the
semantic-only path. -/
def semRanking (cands : List Cand) : List ℕ :=
  rankingOf (semScores cands) cands

/-- Lexical-only ranking: lower BM25 rank first (ascending by rank, stable),
the order the ranked lexical search returns candidates in. -/
def lexRanking (cands : List Cand) : List ℕ :=
  (sortDescBy (fun p : ℕ × Cand => -p.2.rank) (enumL cands)).map Prod.fst

theorem getD_map_cand (f : Cand → ℚ) :
    ∀ (l : List Cand) (i : ℕ), i < l.length →
      (l.map f).getD i 0 = f (l.getD i ⟨false, 0, 0⟩)
  | [], i, hi => absurd hi (by simp)
  | _ :: _, 0, _ => rfl
  | _ :: xs, i + 1, hi =>
    getD_map_cand f xs i (by simpa using Nat.lt_of_succ_lt_succ hi)

theorem getD_mem_cand :
    ∀ (l : List Cand) (i : ℕ), i < l.length → l.getD i ⟨false, 0, 0⟩ ∈ l
  | [], i, hi => absurd hi (by simp)
  | x :: _, 0, _ => List.mem_cons_self x _
  | _ :: xs, i + 1, hi =>
    List.mem_cons_of_mem _ (getD_mem_cand xs i (by simpa using Nat.lt_of_succ_lt_succ hi))

theorem getD_mem_q : ∀ (l : List ℚ) (i : ℕ), i < l.length → l.getD i 0 ∈ l
  | [], i, hi => absurd hi (by simp)
  | x :: _, 0, _ => List.mem_cons_self x _
  | _ :: xs, i + 1, hi =>
    List.mem_cons_of_mem _ (getD_mem_q xs i (by simpa using Nat.lt_of_succ_lt_succ hi))

/-- Min-max normalization does not change the induced ranking, provided the
scores are all equal or their spread reaches the `1e-12` guard. -/
theorem rankingOf_minmaxNorm (S : List ℚ) (cands : List Cand)
    (hlen : S.length = cands.length)
    (h : (∀ x ∈ S, ∀ y ∈ S, x = y) ∨ eps ≤ maxL S - minL S) :
    rankingOf (minmaxNorm S) cands = rankingOf S cands := by
  unfold rankingOf
  congr 1
  apply sortDescBy_congr
  intro p hp q hq
  have hp1 : p.1 < S.length := by
    rw [hlen]; exact (mem_enumL ⟨false, 0, 0⟩ hp).1
  have hq1 : q.1 < S.length := by
    rw [hlen]; exact (mem_enumL ⟨false, 0, 0⟩ hq).1
  rcases h with hall | hrng
  · have hSne : S ≠ [] := by
      intro hS
      rw [hS] at hp1
      exact absurd hp1 (by simp)
    have hdeg : normDegenerate S = true := by
      have heq : maxL S - minL S = 0 :=
        sub_eq_zero.mpr (hall _ (maxL_mem hSne) _ (minL_mem hSne))
      simp [normDegenerate, heq, eps_pos]
    rw [minmaxNorm, hdeg]
    simp only [if_true]
    have h1 : (S.map (fun _ => (1 : ℚ))).getD p.1 0 = 1 := by
      rw [getD_map_zero (fun _ => (1 : ℚ)) S p.1 hp1]
    have h2 : (S.map (fun _ => (1 : ℚ))).getD q.1 0 = 1 := by
      rw [getD_map_zero (fun _ => (1 : ℚ)) S q.1 hq1]
    rw [h1, h2]
    have h3 : S.getD p.1 0 = S.getD q.1 0 :=
      hall _ (getD_mem_q S p.1 hp1) _ (getD_mem_q S q.1 hq1)
    rw [h3]
    simp
  · have hrng0 : (0 : ℚ) < maxL S - minL S := lt_of_lt_of_le eps_pos hrng
    have hdeg : normDegenerate S = false := by
      have hne1 : (S.length == 1) = false := by
        rw [beq_eq_false_iff_ne]
        intro hS1
        obtain ⟨x, hx⟩ := List.length_eq_one.mp hS1
        rw [hx] at hrng0
        norm_num [maxL, minL] at hrng0
      have habs : ¬|maxL S - minL S| < eps := by
        rw [abs_of_pos hrng0]
        exact not_lt.mpr hrng
      simp [normDegenerate, hne1, habs]
    rw [minmaxNorm, hdeg]
    simp only [Bool.false_eq_true, if_false]
    have hdpos : (0 : ℚ) < (maxL S - minL S) + eps := minmaxNorm_denom_pos S
    rw [getD_map_zero _ S p.1 hp1, getD_map_zero _ S q.1 hq1,
      div_lt_div_iff_of_pos_right hdpos, sub_lt_sub_iff_right]

theorem zipWith_alpha_one (l₁ : List ℚ) :
    ∀ l₂ : List ℚ, l₁.length = l₂.length →
      List.zipWith (fun s b => 1 * s + (1 - 1) * b) l₁ l₂ = l₁ := by
  induction l₁ with
  | nil => intro l₂ _; rfl
  | cons x xs ih =>
    intro l₂ h
    cases l₂ with
    | nil => exact absurd h (by simp)
    | cons y ys =>
      simp only [List.zipWith_cons_cons]
      rw [ih ys (by simpa using h)]
      congr 1
      ring

theorem zipWith_alpha_zero (l₁ : List ℚ) :
    ∀ l₂ : List ℚ, l₁.length = l₂.length →
      List.zipWith (fun s b => 0 * s + (1 - 0) * b) l₁ l₂ = l₂ := by
  induction l₁ with
  | nil => intro l₂ h; rw [List.zipWith_nil_left]; exact (List.length_eq_zero.mp h.symm).symm
  | cons x xs ih =>
    intro l₂ h
    cases l₂ with
    | nil => exact absurd h (by simp)
    | cons y ys =>
      simp only [List.zipWith_cons_cons]
      rw [ih ys (by simpa using h)]
      congr 1
      ring

/-- C5 (counterexample): with `alpha = 0.0` and the realistic negative BM25
ranks `0` and `-2` (SQLite's bm25 is negative, lower = better), fusion ranks
the rank-`0` candidate first, while lexical-only order puts the rank-`-2`
candidate first: the inversion `1/(1+r)` is not order-reversing at ranks
below `-1`. -/
theorem fusion_alpha_zero_not_lexical :
    fusionRanking 0 [⟨true, 0, 0⟩, ⟨true, 0, -2⟩] ≠
      lexRanking [⟨true, 0, 0⟩, ⟨true, 0, -2⟩] := by
  norm_num [fusionRanking, lexRanking, rankingOf, combinedScores, semScores, bmInvScores,
    minmaxNorm, normDegenerate, minL, maxL, eps, enumL, enumFromL, sortDescBy, insertDescBy,
    abs_lt]

/-- C5 (amended): provided each signal's scores are either all equal or have
spread at least the `1e-12` normalization guard, and all lexical ranks
exceed `-1` (so that `1/(1+r)` is order-reversing), fusion with
`alpha = 1.0` reproduces the semantic-only ranking order and fusion with
`alpha = 0.0` reproduces the lexical-only ranking order (lower rank
first). -/
theorem fusion_alpha_extremes (cands : List Cand)
    (hsem : (∀ x ∈ semScores cands, ∀ y ∈ semScores cands, x = y) ∨
      eps ≤ maxL (semScores cands) - minL (semScores cands))
    (hrank : ∀ c ∈ cands, (-1 : ℚ) < c.rank)
    (hbm : (∀ x ∈ bmInvScores cands, ∀ y ∈ bmInvScores cands, x = y) ∨
      eps ≤ maxL (bmInvScores cands) - minL (bmInvScores cands)) :
    fusionRanking 1 cands = semRanking cands ∧
      fusionRanking 0 cands = lexRanking cands := by
  have hslen : (minmaxNorm (semScores cands)).length = (minmaxNorm (bmInvScores cands)).length := by
    rw [minmaxNorm_length, minmaxNorm_length, semScores, bmInvScores,
      List.length_map, List.length_map]
  constructor
  · have hone : combinedScores 1 cands = minmaxNorm (semScores cands) := by
      rw [combinedScores]
      exact zipWith_alpha_one _ _ hslen
    rw [fusionRanking, hone, semRanking]
    exact rankingOf_minmaxNorm _ cands (by rw [semScores, List.length_map]) hsem
  · have hzero : combinedScores 0 cands = minmaxNorm (bmInvScores cands) := by
      rw [combinedScores]
      exact zipWith_alpha_zero _ _ hslen
    rw [fusionRanking, hzero,
      rankingOf_minmaxNorm _ cands (by rw [bmInvScores, List.length_map]) hbm]
    unfold rankingOf lexRanking
    congr 1
    apply sortDescBy_congr
    intro p hp q hq
    obtain ⟨hp1, hp2⟩ := mem_enumL ⟨false, 0, 0⟩ hp
    obtain ⟨hq1, hq2⟩ := mem_enumL ⟨false, 0, 0⟩ hq
    have hpm : p.2 ∈ cands := by
      rw [← hp2]
      exact getD_mem_cand cands p.1 hp1
    have hqm : q.2 ∈ cands := by
      rw [← hq2]
      exact getD_mem_cand cands q.1 hq1
    have hppos : (0 : ℚ) < 1 + p.2.rank := by
      have := hrank p.2 hpm
      linarith
    have hqpos : (0 : ℚ) < 1 + q.2.rank := by
      have := hrank q.2 hqm
      linarith
    rw [bmInvScores, getD_map_cand _ cands p.1 hp1, getD_map_cand _ cands q.1 hq1,
      hp2, hq2, one_div_lt_one_div hppos hqpos, neg_lt_neg_iff]
    constructor
    · intro h; linarith
    · intro h; linarith

/-- Witness for the amended C5 at a concrete two-candidate set. -/
theorem fusion_alpha_extremes_witness :
    fusionRanking 1 [⟨true, 1, 0⟩, ⟨true, 0, 1⟩] = semRanking [⟨true, 1, 0⟩, ⟨true, 0, 1⟩] ∧
      fusionRanking 0 [⟨true, 1, 0⟩, ⟨true, 0, 1⟩] = lexRanking [⟨true, 1, 0⟩, ⟨true, 0, 1⟩] :=
  fusion_alpha_extremes [⟨true, 1, 0⟩, ⟨true, 0, 1⟩]
    (Or.inr (by norm_num [semScores, maxL, minL, eps]))
    (by intro c hc; fin_cases hc <;> norm_num)
    (Or.inr (by norm_num [bmInvScores, maxL, minL, eps]))

/-- C2 (code divergence): a hybrid candidate set in which two candidates have
a valid embedding and one has a missing/mismatched embedding makes the
pipeline add a length-2 `sem_norm` array to a length-3 `bm_norm` array, a
fatal NumPy broadcast error — the search raises instead of fusing the
remaining candidates.  (`alpha = 0.6`, threshold `0.7`, limit `5` are the
configured defaults.) -/
theorem hybrid_mismatched_embedding_fatal :
    hybridStep (6/10) (7/10) 5
      [⟨true, 1, 1⟩, ⟨true, 1/2, 2⟩, ⟨false, 0, 3⟩] =
      .error "ValueError: operands could not be broadcast together" := by
  norm_num [hybridStep, enumL, enumFromL, minmaxNorm, normDegenerate, minL, maxL, eps,
    npBroadcastCombine, abs_lt]

/-! ## Persistence layer (`database.py`) -/

/-- `get_memory_by_id`: `SELECT * FROM memories WHERE id = ?`, first matching
row, archived rows included. -/
def getMemoryById (store : List Memory) (memory_id : String) : Option Memory :=
  store.find? (fun m => m.id == memory_id)

/-- `get_memory_by_hash`: first row with the given content hash among
non-archived rows (`WHERE text_hash = ? AND archived = 0`). -/
def getMemoryByHash (store : List Memory) (text_hash : String) : Option Memory :=
  store.find? (fun m => m.text_hash == text_hash && !m.archived)

/-- The tag predicate of `list_memories`/`count_memories`: each requested tag
is matched against the JSON-encoded tag list with `LIKE '%"tag"%'`, i.e. a
row passes when any requested tag occurs in its tag list. -/
def tagsMatch (tags : List String) (m : Memory) : Bool :=
  tags.any (fun t => m.tags.contains t)

/-- The `WHERE archived = 0 [AND project = ?] [AND (tags LIKE ...)]` filter of
`list_memories` and `count_memories`; `if project:` and `if tags:` are Python
truthiness tests. -/
def listFilter (project : Option String) (tags : List String) (store : List Memory) :
    List Memory :=
  (store.filter (fun m => !m.archived)).filter
    (fun m => (!strTruthy project || m.project == project) &&
      (tags.isEmpty || tagsMatch tags m))

/-- `list_memories`: filtered rows ordered by `created_at DESC` with
`LIMIT ? OFFSET ?`. -/
def dbListMemories (store : List Memory) (project : Option String) (tags : List String)
    (limit offset : ℕ) : List Memory :=
  (((sortDescBy (fun m : Memory => m.created_at) (listFilter project tags store)).drop
    offset).take limit)

/-- `count_memories`: the size of the filtered row set. -/
def countMemories (store : List Memory) (project : Option String) (tags : List String) : ℕ :=
  (listFilter project tags store).length

/-- `get_all_memories`: all non-archived rows, `created_at DESC`. -/
def getAllMemories (store : List Memory) : List Memory :=
  sortDescBy (fun m : Memory => m.created_at) (store.filter (fun m => !m.archived))

/-- The `total_memories` figure of `get_stats` (`count_memories()` with no
filters; the per-project and per-tag breakdowns are likewise computed
`WHERE archived = 0`). -/
def getStatsTotal (store : List Memory) : ℕ := countMemories store none []

/-- `update_embedding`: set the embedding and touch `updated_at` on the rows
with the given id. -/
def updateEmbedding (store : List Memory) (memory_id : String) (emb : List ℚ)
    (now : Int) : List Memory :=
  store.map (fun m =>
    if m.id == memory_id then { m with embedding := some emb, updated_at := now } else m)

/-- The `DELETE` predicate of the database `bulk_delete`:
`WHERE 1=1 [AND project = ?] [AND created_at < ?]`, where
`if before_timestamp:` drops the date bound when the timestamp is `None`
*or `0`* (Python truthiness). -/
def bulkDeleteMatch (project : Option String) (before_ts : Option Int) (m : Memory) : Bool :=
  (!strTruthy project || m.project == project) &&
    (!intTruthy before_ts || decide (m.created_at < before_ts.getD 0))

/-- `bulk_delete` of the database layer: returns the remaining rows and the
deleted row count (`cursor.rowcount`). -/
def dbBulkDelete (project : Option String) (before_ts : Option Int) (store : List Memory) :
    List Memory × ℕ :=
  let remaining := store.filter (fun m => !bulkDeleteMatch project before_ts m)
  (remaining, store.length - remaining.length)

/-! ## The memory service (`memory.py`): save -/

/-- `save_memory` of the service.  External collaborators appear as function
parameters: `hashFn` is the SHA-256 content hash, `embedF` the embedding
encoder, `autotagF` the tags-plus-category produced by the tagging
collaborator (applied when no tags were supplied and tagging is enabled);
`maxLen` is the configured maximum text length, `newId` the freshly
generated UUID and `now` the current timestamp.  Over-length text raises a
`ValueError`; a non-archived record with the same content hash
short-circuits as a duplicate without inserting; otherwise a new record is
appended.  (Summary generation only fills the result projection's optional
summary and is modelled away with that field.) -/
def saveMemory (hashFn : String → String) (embedF : String → List ℚ)
    (autotagEnabled : Bool) (autotagF : String → List String)
    (maxLen : ℕ) (newId : String) (now : Int)
    (text : String) (project : Option String) (tags : List String)
    (store : List Memory) : Except String ((String × Bool) × List Memory) :=
  if maxLen < text.length then .error "Text exceeds maximum length"
  else
    match getMemoryByHash store (hashFn text) with
    | some existing => .ok ((existing.id, true), store)
    | none =>
      let finalTags := if tags.isEmpty && autotagEnabled then tags ++ autotagF text else tags
      .ok ((newId, false),
        store ++ [⟨newId, text, hashFn text, some (embedF text), project, finalTags,
          now, now, false⟩])

/-- C3: a save whose text hashes to the content hash of an existing
non-archived record returns that record's id with the duplicate flag and
leaves the store unchanged; a save whose hash matches no non-archived
record appends exactly one new non-archived record carrying the fresh id
(an id no existing record has) and the content hash of the text. -/
theorem save_memory_dedup (hashFn : String → String) (embedF : String → List ℚ)
    (autotagEnabled : Bool) (autotagF : String → List String)
    (maxLen : ℕ) (newId : String) (now : Int)
    (text : String) (project : Option String) (tags : List String)
    (store : List Memory)
    (hlen : text.length ≤ maxLen)
    (hfresh : ∀ m ∈ store, m.id ≠ newId) :
    ((∃ m ∈ store, m.text_hash = hashFn text ∧ m.archived = false) →
      ∃ m ∈ store, m.text_hash = hashFn text ∧ m.archived = false ∧
        saveMemory hashFn embedF autotagEnabled autotagF maxLen newId now
          text project tags store = .ok ((m.id, true), store)) ∧
    ((∀ m ∈ store, m.text_hash = hashFn text → m.archived = true) →
      ∃ rec, saveMemory hashFn embedF autotagEnabled autotagF maxLen newId now
          text project tags store = .ok ((newId, false), store ++ [rec]) ∧
        rec.id = newId ∧ rec.text_hash = hashFn text ∧ rec.archived = false ∧
        ∀ m ∈ store, m.id ≠ rec.id) := by
  have hnotlong : ¬maxLen < text.length := not_lt.mpr hlen
  constructor
  · rintro ⟨m, hm, hhash, harch⟩
    have hsome : (getMemoryByHash store (hashFn text)).isSome := by
      rw [getMemoryByHash, List.find?_isSome]
      exact ⟨m, hm, by simp [hhash, harch]⟩
    obtain ⟨m₀, hm₀⟩ := Option.isSome_iff_exists.mp hsome
    have hmem : m₀ ∈ store := List.mem_of_find?_eq_some hm₀
    have hpred := List.find?_some hm₀
    rw [Bool.and_eq_true, beq_iff_eq, Bool.not_eq_true'] at hpred
    refine ⟨m₀, hmem, hpred.1, hpred.2, ?_⟩
    rw [saveMemory, if_neg hnotlong, hm₀]
  · intro hnone
    have hfind : getMemoryByHash store (hashFn text) = none := by
      rw [getMemoryByHash, List.find?_eq_none]
      intro m hm hpred
      rw [Bool.and_eq_true, beq_iff_eq, Bool.not_eq_true'] at hpred
      exact absurd (hnone m hm hpred.1) (by simp [hpred.2])
    refine ⟨⟨newId, text, hashFn text, some (embedF text), project,
      if tags.isEmpty && autotagEnabled then tags ++ autotagF text else tags,
      now, now, false⟩, ?_, rfl, rfl, rfl, hfresh⟩
    rw [saveMemory, if_neg hnotlong, hfind]

/-- The concrete store record used by the C3 witness. -/
def mOld : Memory :=
  ⟨"old", "hello", "hello", none, none, [], 1, 1, false⟩

/-- Witness for C3 at a one-record store whose record hashes like "hello"
(with the identity function standing in for the hash collaborator). -/
theorem save_memory_dedup_witness :
    ((∃ m ∈ [mOld], m.text_hash = id "hello" ∧ m.archived = false) →
      ∃ m ∈ [mOld], m.text_hash = id "hello" ∧ m.archived = false ∧
        saveMemory id (fun _ => []) false (fun _ => []) 100 "new" 2
          "hello" none [] [mOld] = .ok ((m.id, true), [mOld])) ∧
    ((∀ m ∈ [mOld], m.text_hash = id "hello" → m.archived = true) →
      ∃ rec, saveMemory id (fun _ => []) false (fun _ => []) 100 "new" 2
          "hello" none [] [mOld] = .ok (("new", false), [mOld] ++ [rec]) ∧
        rec.id = "new" ∧ rec.text_hash = id "hello" ∧ rec.archived = false ∧
        ∀ m ∈ [mOld], m.id ≠ rec.id) :=
  save_memory_dedup id (fun _ => []) false (fun _ => []) 100 "new" 2 "hello" none []
    [mOld] (by decide) (by decide)

/-! ## Date filters and bulk delete (`memory.py` search filters,
`memory.py` / `database.py` bulk delete) -/

/-- The after-date filter of the search paths: `if after_date:` (Python
truthiness), then `datetime.fromisoformat(after_date.replace("Z", "+00:00"))`
— modelled by the abstract parser `parse`, which returns `none` exactly when
the parse raises `ValueError`; on failure the bound is simply not applied
(`except ValueError: pass`); on success rows with `created_at >= after_ts`
are kept (inclusive bound). -/
def applyAfterFilter (parse : String → Option Int) (after_date : Option String)
    (ms : List Memory) : List Memory :=
  match after_date with
  | none => ms
  | some a =>
    if a == "" then ms
    else
      match parse a with
      | some ts => ms.filter (fun m => decide (ts ≤ m.created_at))
      | none => ms

/-- The before-date filter of the search paths: rows with
`created_at <= before_ts` are kept (inclusive bound); malformed dates are
ignored exactly as in `applyAfterFilter`. -/
def applyBeforeFilter (parse : String → Option Int) (before_date : Option String)
    (ms : List Memory) : List Memory :=
  match before_date with
  | none => ms
  | some b =>
    if b == "" then ms
    else
      match parse b with
      | some ts => ms.filter (fun m => decide (m.created_at ≤ ts))
      | none => ms

/-- Both date filters of the search paths, applied in source order. -/
def applyDateFilters (parse : String → Option Int) (after_date before_date : Option String)
    (ms : List Memory) : List Memory :=
  applyBeforeFilter parse before_date (applyAfterFilter parse after_date ms)

/-- `bulk_delete` of the service: `if before_date:` (truthiness), then parse;
a `ValueError` from the parse is *re-raised* as
`ValueError(f"Invalid date format: {before_date}")` — unlike the search
filters, which swallow it.  On success the parsed timestamp is handed to the
database delete. -/
def serviceBulkDelete (parse : String → Option Int) (project : Option String)
    (before_date : Option String) (store : List Memory) :
    Except String (List Memory × ℕ) :=
  match before_date with
  | none => .ok (dbBulkDelete project none store)
  | some b =>
    if b == "" then .ok (dbBulkDelete project none store)
    else
      match parse b with
      | some ts => .ok (dbBulkDelete project (some ts) store)
      | none => .error ("Invalid date format: " ++ b)

/-- C6 (counterexample): with a date parser that rejects "not-a-date" (as
`datetime.fromisoformat` does), `bulk_delete` — an operation accepting an
optional before-date filter — fails with an error instead of ignoring the
bound. -/
theorem bulk_delete_malformed_date_fatal :
    serviceBulkDelete (fun _ => none) none (some "not-a-date") [] =
      .error ("Invalid date format: " ++ "not-a-date") := by
  rfl

/-- C6 (amended): a malformed (unparseable) date string given to the search
paths' after/before filters causes that bound simply not to be applied and
never a failure; `bulk_delete`, by contrast, fails with an
"Invalid date format" error on a malformed (non-empty) before date. -/
theorem malformed_date_ignored_in_search_fatal_in_bulk_delete
    (parse : String → Option Int) (b : String) (proj : Option String)
    (after_date : Option String) (ms store : List Memory)
    (hb : parse b = none) :
    applyAfterFilter parse (some b) ms = ms ∧
    applyBeforeFilter parse (some b) ms = ms ∧
    applyDateFilters parse after_date (some b) ms =
      applyAfterFilter parse after_date ms ∧
    (b ≠ "" → serviceBulkDelete parse proj (some b) store =
      .error ("Invalid date format: " ++ b)) := by
  have hafter : applyAfterFilter parse (some b) ms = ms := by
    rw [applyAfterFilter]
    by_cases h : b == ""
    · rw [if_pos h]
    · rw [if_neg h, hb]
  have hbefore : ∀ ms' : List Memory, applyBeforeFilter parse (some b) ms' = ms' := by
    intro ms'
    rw [applyBeforeFilter]
    by_cases h : b == ""
    · rw [if_pos h]
    · rw [if_neg h, hb]
  refine ⟨hafter, hbefore ms, ?_, ?_⟩
  · rw [applyDateFilters, hbefore]
  · intro hne
    rw [serviceBulkDelete, if_neg (by simpa using hne), hb]

/-- Witness for the amended C6 with an always-failing parser on the date
string "x". -/
theorem malformed_date_ignored_in_search_fatal_in_bulk_delete_witness :
    applyAfterFilter (fun _ => none) (some "x") [mOld] = [mOld] ∧
    applyBeforeFilter (fun _ => none) (some "x") [mOld] = [mOld] ∧
    applyDateFilters (fun _ => none) none (some "x") [mOld] =
      applyAfterFilter (fun _ => none) none [mOld] ∧
    ("x" ≠ "" → serviceBulkDelete (fun _ => none) none (some "x") [mOld] =
      .error ("Invalid date format: " ++ "x")) :=
  malformed_date_ignored_in_search_fatal_in_bulk_delete
    (fun _ => none) "x" none none [mOld] [mOld] rfl

/-- The concrete record of the C10 counterexample: `created_at = 5`. -/
def mFive : Memory := ⟨"a", "t", "h", none, none, [], 5, 5, false⟩

/-- C10 (counterexample): a before bound that parses to timestamp `0`
(`"1970-01-01T00:00:00Z"`) is dropped by the `if before_timestamp:`
truthiness test, so the delete removes a record whose `created_at = 5` is
*not* strictly below the parsed timestamp — the delete is not the claimed
"exactly the records with `created_at < timestamp`". -/
theorem bulk_delete_epoch_bound_deletes_everything :
    serviceBulkDelete (fun _ => some 0) none (some "1970-01-01T00:00:00Z") [mFive] =
      .ok ([], 1) ∧ ¬(mFive.created_at < 0) := by
  constructor
  · rfl
  · decide

/-- C10 (amended): for every *nonzero* parsed timestamp, the database
`bulk_delete` deletes exactly the project-matching records with
`created_at` strictly below the bound: a record remains iff it does not
match, a record whose `created_at` equals the bound is always retained
(the bound is exclusive), the reported count is the number of removed
records — while the search path's before filter is inclusive: a record
whose `created_at` equals the parsed before bound passes it. -/
theorem bulk_delete_strict_exclusive_bound (proj : Option String) (ts : Int)
    (store : List Memory) (parse : String → Option Int) (b : String)
    (ms : List Memory)
    (hts : ts ≠ 0) (hb : b ≠ "") (hparse : parse b = some ts) :
    (∀ m ∈ store, (m ∈ (dbBulkDelete proj (some ts) store).1 ↔
      ¬((strTruthy proj = true → m.project = proj) ∧ m.created_at < ts))) ∧
    (∀ m ∈ store, m.created_at = ts → m ∈ (dbBulkDelete proj (some ts) store).1) ∧
    (dbBulkDelete proj (some ts) store).2 =
      store.length - (dbBulkDelete proj (some ts) store).1.length ∧
    (∀ m ∈ ms, m.created_at = ts → m ∈ applyBeforeFilter parse (some b) ms) := by
  have htruthy : intTruthy (some ts) = true := by
    simp [intTruthy, hts]
  have hmatch : ∀ m : Memory, bulkDeleteMatch proj (some ts) m = true ↔
      ((strTruthy proj = true → m.project = proj) ∧ m.created_at < ts) := by
    intro m
    rw [bulkDeleteMatch, htruthy]
    cases hp : strTruthy proj with
    | false => simp
    | true => simp [beq_iff_eq]
  refine ⟨?_, ?_, rfl, ?_⟩
  · intro m hm
    rw [dbBulkDelete]
    simp only [List.mem_filter, Bool.not_eq_true']
    constructor
    · rintro ⟨-, hkeep⟩ hdel
      rw [← hmatch m] at hdel
      rw [hdel] at hkeep
      exact Bool.true_eq_false.mp hkeep
    · intro hnot
      refine ⟨hm, ?_⟩
      rcases hB : bulkDeleteMatch proj (some ts) m with _ | _
      · rfl
      · exact absurd ((hmatch m).mp hB) hnot
  · intro m hm heq
    rw [dbBulkDelete]
    simp only [List.mem_filter, Bool.not_eq_true']
    refine ⟨hm, ?_⟩
    rcases hB : bulkDeleteMatch proj (some ts) m with _ | _
    · rfl
    · obtain ⟨-, hlt⟩ := (hmatch m).mp hB
      rw [heq] at hlt
      exact absurd hlt (lt_irrefl ts)
  · intro m hm heq
    rw [applyBeforeFilter, if_neg (by simpa using hb), hparse]
    rw [List.mem_filter]
    exact ⟨hm, by simp [heq]⟩

/-- Witness for the amended C10 at timestamp 5 over a one-record store. -/
theorem bulk_delete_strict_exclusive_bound_witness :
    (∀ m ∈ [mFive], (m ∈ (dbBulkDelete none (some 5) [mFive]).1 ↔
      ¬((strTruthy none = true → m.project = none) ∧ m.created_at < 5))) ∧
    (∀ m ∈ [mFive], m.created_at = 5 → m ∈ (dbBulkDelete none (some 5) [mFive]).1) ∧
    (dbBulkDelete none (some 5) [mFive]).2 =
      [mFive].length - (dbBulkDelete none (some 5) [mFive]).1.length ∧
    (∀ m ∈ [mFive], m.created_at = 5 →
      m ∈ applyBeforeFilter (fun _ => some 5) (some "2026-01-01") [mFive]) :=
  bulk_delete_strict_exclusive_bound none 5 [mFive] (fun _ => some 5) "2026-01-01"
    [mFive] (by decide) (by decide) rfl

/-! ## Semantic-only search and relevance listing (`memory.py`) -/

/-- A stored embedding usable for semantic scoring:
`m.embedding is not None and len(m.embedding) == emb_dim`. -/
def embOk (dim : ℕ) (m : Memory) : Bool :=
  match m.embedding with
  | some e => e.length == dim
  | none => false

/-- The semantic-only path of `search_memory` (source lines 333-384): all
non-archived memories; project, tags and date filters; keep candidates with
an embedding of the configured dimension; score with the cosine kernel
(abstracted as `score`); keep scores `>= threshold`; stable descending
sort; truncate to `limit`.  Results are `(id, score)` projections (the
round-to-4-decimals presentation of the score is elided). -/
def semCandidates (dim : ℕ) (parse : String → Option Int)
    (project : Option String) (tags : List String)
    (after_date before_date : Option String) (store : List Memory) : List Memory :=
  let ms₀ := getAllMemories store
  let ms₁ := if strTruthy project then ms₀.filter (fun m => m.project == project) else ms₀
  let ms₂ := if !tags.isEmpty then ms₁.filter (fun m => tagsMatch tags m) else ms₁
  let ms₃ := applyDateFilters parse after_date before_date ms₂
  ms₃.filter (fun m => embOk dim m)

def searchSemantic (score : Memory → ℚ) (dim : ℕ) (parse : String → Option Int)
    (project : Option String) (tags : List String)
    (after_date before_date : Option String) (thr : ℚ) (limit : ℕ)
    (store : List Memory) : List (String × ℚ) :=
  let withEmb := semCandidates dim parse project tags after_date before_date store
  if withEmb.isEmpty then []
  else
    let pairs := (withEmb.map (fun m => (m, score m))).filter (fun p => decide (thr ≤ p.2))
    ((sortDescBy (fun p : Memory × ℚ => p.2) pairs).take limit).map (fun p => (p.1.id, p.2))

theorem applyAfterFilter_subset {parse : String → Option Int} {a : Option String}
    {ms : List Memory} {x : Memory} (hx : x ∈ applyAfterFilter parse a ms) : x ∈ ms := by
  rcases a with _ | a
  · exact hx
  · rw [applyAfterFilter] at hx
    by_cases h : a == ""
    · rwa [if_pos h] at hx
    · rw [if_neg h] at hx
      rcases hp : parse a with _ | ts
      · rwa [hp] at hx
      · rw [hp] at hx
        exact List.mem_of_mem_filter hx

theorem applyBeforeFilter_subset {parse : String → Option Int} {b : Option String}
    {ms : List Memory} {x : Memory} (hx : x ∈ applyBeforeFilter parse b ms) : x ∈ ms := by
  rcases b with _ | b
  · exact hx
  · rw [applyBeforeFilter] at hx
    by_cases h : b == ""
    · rwa [if_pos h] at hx
    · rw [if_neg h] at hx
      rcases hp : parse b with _ | ts
      · rwa [hp] at hx
      · rw [hp] at hx
        exact List.mem_of_mem_filter hx

theorem mem_getAllMemories {store : List Memory} {x : Memory}
    (hx : x ∈ getAllMemories store) : x ∈ store ∧ x.archived = false := by
  have h := mem_sortDescBy hx
  rw [List.mem_filter, Bool.not_eq_true'] at h
  exact h

theorem mem_ite_filter {P : Prop} [Decidable P] {p : Memory → Bool}
    {l : List Memory} {x : Memory}
    (hx : x ∈ (if P then l.filter p else l)) : x ∈ l := by
  by_cases h : P
  · rw [if_pos h] at hx
    exact List.mem_of_mem_filter hx
  · rwa [if_neg h] at hx

theorem mem_semCandidates {dim : ℕ} {parse : String → Option Int}
    {proj : Option String} {tags : List String} {a b : Option String}
    {store : List Memory} {x : Memory}
    (hx : x ∈ semCandidates dim parse proj tags a b store) :
    x ∈ store ∧ x.archived = false := by
  rw [semCandidates] at hx
  have hx1 := List.mem_of_mem_filter hx
  rw [applyDateFilters] at hx1
  have hx2 := applyAfterFilter_subset (applyBeforeFilter_subset hx1)
  have hx3 : x ∈ getAllMemories store := mem_ite_filter (mem_ite_filter hx2)
  exact mem_getAllMemories hx3

theorem mem_dbListMemories {store : List Memory} {proj : Option String}
    {tags : List String} {limit offset : ℕ} {x : Memory}
    (hx : x ∈ dbListMemories store proj tags limit offset) :
    x ∈ store ∧ x.archived = false := by
  rw [dbListMemories] at hx
  have h1 := List.mem_of_mem_drop (List.mem_of_mem_take hx)
  have h2 := mem_sortDescBy h1
  rw [listFilter] at h2
  have h3 := List.mem_of_mem_filter h2
  rw [List.mem_filter, Bool.not_eq_true'] at h3
  exact h3

/-- Every result of the semantic-only search carries the id of some
non-archived record of the store. -/
theorem mem_searchSemantic {score : Memory → ℚ} {dim : ℕ} {parse : String → Option Int}
    {proj : Option String} {tags : List String} {a b : Option String} {thr : ℚ}
    {limit : ℕ} {store : List Memory} {r : String × ℚ}
    (hr : r ∈ searchSemantic score dim parse proj tags a b thr limit store) :
    ∃ x ∈ store, x.archived = false ∧ r.1 = x.id := by
  rw [searchSemantic] at hr
  by_cases hempty :
      (semCandidates dim parse proj tags a b store).isEmpty = true
  · rw [if_pos hempty] at hr
    exact absurd hr (List.not_mem_nil r)
  · rw [if_neg hempty] at hr
    obtain ⟨p, hp, hpr⟩ := List.mem_map.mp hr
    have hp1 := mem_sortDescBy (List.mem_of_mem_take hp)
    have hp2 := List.mem_of_mem_filter hp1
    obtain ⟨x, hx, hxp⟩ := List.mem_map.mp hp2
    obtain ⟨hxs, hxa⟩ := mem_semCandidates hx
    refine ⟨x, hxs, hxa, ?_⟩
    rw [← hpr, ← hxp]

/-- If passing `p` forces passing `q`, filtering by `q` first does not change
the result of filtering by `p`. -/
theorem filter_of_imp (p q : Memory → Bool) :
    ∀ l : List Memory, (∀ x ∈ l, p x = true → q x = true) →
      l.filter p = (l.filter q).filter p := by
  intro l
  induction l with
  | nil => intro _; rfl
  | cons x xs ih =>
    intro h
    have ih' := ih (fun y hy hp => h y (List.mem_cons_of_mem x hy) hp)
    by_cases hp : p x = true
    · have hq := h x (List.mem_cons_self x xs) hp
      rw [List.filter_cons_of_pos hp, List.filter_cons_of_pos hq,
        List.filter_cons_of_pos hp, ih']
    · rw [List.filter_cons_of_neg (by simpa using hp)]
      by_cases hq : q x = true
      · rw [List.filter_cons_of_pos hq, List.filter_cons_of_neg (by simpa using hp), ih']
      · rw [List.filter_cons_of_neg (by simpa using hq), ih']

/-- C7: an archived record is excluded from the candidate pool of search,
from listing, from counting and from the stats total, yet direct lookup by
its id still returns it.  (`huniq` is the primary-key invariant: no other
record carries the same id.) -/
theorem archived_record_invisible_but_gettable (store : List Memory) (m : Memory)
    (hm : m ∈ store) (harch : m.archived = true)
    (huniq : ∀ x ∈ store, x.id = m.id → x = m) :
    m ∉ getAllMemories store ∧
    (∀ proj tags limit offset, m ∉ dbListMemories store proj tags limit offset) ∧
    (∀ proj tags, countMemories store proj tags =
      countMemories (store.filter (fun x => x.id != m.id)) proj tags) ∧
    getStatsTotal store = getStatsTotal (store.filter (fun x => x.id != m.id)) ∧
    (∀ (score : Memory → ℚ) (dim : ℕ) (parse : String → Option Int)
      (proj : Option String) (tags : List String) (a b : Option String)
      (thr : ℚ) (limit : ℕ) (r : String × ℚ),
      r ∈ searchSemantic score dim parse proj tags a b thr limit store → r.1 ≠ m.id) ∧
    getMemoryById store m.id = some m := by
  have hfilter_eq : store.filter (fun x => !x.archived) =
      (store.filter (fun x => x.id != m.id)).filter (fun x => !x.archived) := by
    apply filter_of_imp
    intro x hx hp
    rw [Bool.not_eq_true'] at hp
    rw [bne_iff_ne]
    intro hid
    have hxm := huniq x hx hid
    rw [hxm, harch] at hp
    exact Bool.true_eq_false.mp hp
  refine ⟨?_, ?_, ?_, ?_, ?_, ?_⟩
  · intro h
    exact absurd harch (by simp [(mem_getAllMemories h).2])
  · intro proj tags limit offset h
    exact absurd harch (by simp [(mem_dbListMemories h).2])
  · intro proj tags
    rw [countMemories, countMemories, listFilter, listFilter, hfilter_eq]
  · rw [getStatsTotal, getStatsTotal, countMemories, countMemories, listFilter,
      listFilter, hfilter_eq]
  · intro score dim parse proj tags a b thr limit r hr hid
    obtain ⟨x, hxs, hxa, hrx⟩ := mem_searchSemantic hr
    have hxm := huniq x hxs (by rw [← hrx, hid])
    rw [hxm] at hxa
    rw [harch] at hxa
    exact Bool.true_eq_false.mp hxa
  · have hsome : (store.find? (fun x => x.id == m.id)).isSome := by
      rw [List.find?_isSome]
      exact ⟨m, hm, by simp⟩
    obtain ⟨x, hx⟩ := Option.isSome_iff_exists.mp hsome
    have hxid : x.id = m.id := by
      have := List.find?_some hx
      rwa [beq_iff_eq] at this
    have hxm := huniq x (List.mem_of_find?_eq_some hx) hxid
    rw [getMemoryById, hx, hxm]

/-- The archived record and its non-archived companion used by the C7 and C9
witnesses. -/
def mArch : Memory := ⟨"arch", "t1", "h1", some [1], none, [], 10, 10, true⟩

def mLive : Memory := ⟨"live", "t2", "h2", some [1], none, [], 20, 20, false⟩

/-- A live record with no stored embedding, for the C9 witness. -/
def mNoEmb : Memory := ⟨"noemb", "t3", "h3", none, none, [], 30, 30, false⟩

/-- Witness for C7 over a two-record store. -/
theorem archived_record_invisible_but_gettable_witness :
    mArch ∉ getAllMemories [mLive, mArch] ∧
    (∀ proj tags limit offset, mArch ∉ dbListMemories [mLive, mArch] proj tags limit offset) ∧
    (∀ proj tags, countMemories [mLive, mArch] proj tags =
      countMemories ([mLive, mArch].filter (fun x => x.id != mArch.id)) proj tags) ∧
    getStatsTotal [mLive, mArch] =
      getStatsTotal ([mLive, mArch].filter (fun x => x.id != mArch.id)) ∧
    (∀ (score : Memory → ℚ) (dim : ℕ) (parse : String → Option Int)
      (proj : Option String) (tags : List String) (a b : Option String)
      (thr : ℚ) (limit : ℕ) (r : String × ℚ),
      r ∈ searchSemantic score dim parse proj tags a b thr limit [mLive, mArch] →
        r.1 ≠ mArch.id) ∧
    getMemoryById [mLive, mArch] mArch.id = some mArch :=
  archived_record_invisible_but_gettable [mLive, mArch] mArch
    (by decide) (by decide) (by decide)

/-- Python truthiness of the stored embedding (`if memory.embedding:`): both
a missing embedding and an empty vector are falsy. -/
def embTruthy (m : Memory) : Bool :=
  match m.embedding with
  | some e => !e.isEmpty
  | none => false

/-- The relevance-sort branch of `list_memories` (source lines 412-443,
taken when `sort == "relevance"` and a search query is given): the working
set is the filtered store capped at 10000 and its size is the reported
total; only memories with a truthy embedding are scored (`sim` is the
cosine kernel against the query embedding); scored memories are sorted
descending (stable) and paginated with offset `(page - 1) * limit`. -/
def listMemoriesRelevance (sim : Memory → ℚ) (store : List Memory)
    (project : Option String) (tags : List String) (page limit : ℕ) :
    List (String × ℚ) × ℕ :=
  let all := dbListMemories store project tags 10000 0
  let scored := (all.filter (fun m => embTruthy m)).map (fun m => (m, sim m))
  let sorted := sortDescBy (fun p : Memory × ℚ => p.2) scored
  let paginated := (sorted.drop ((page - 1) * limit)).take limit
  (paginated.map (fun p => (p.1.id, p.2)), all.length)

theorem length_filter_lt (p : Memory → Bool) :
    ∀ (l : List Memory) (x : Memory), x ∈ l → p x = false →
      (l.filter p).length < l.length := by
  intro l
  induction l with
  | nil => intro x hx _; exact absurd hx (List.not_mem_nil x)
  | cons y ys ih =>
    intro x hx hpx
    rcases List.mem_cons.mp hx with rfl | hx
    · rw [List.filter_cons_of_neg (by simp [hpx]), List.length_cons]
      exact Nat.lt_succ_of_le (List.length_filter_le p ys)
    · by_cases hy : p y = true
      · rw [List.filter_cons_of_pos hy, List.length_cons, List.length_cons]
        exact Nat.succ_lt_succ (ih x hx hpx)
      · rw [List.filter_cons_of_neg (by simpa using hy), List.length_cons]
        exact Nat.lt_succ_of_lt (ih x hx hpx)

/-- C9: under relevance sort with a query, the reported total is the size of
the pre-sort working set (which includes memories without a truthy
embedding), while such memories are never scored and so never appear on any
page; hence the total strictly exceeds the number of results obtainable
across all pages (every page draws from the scored subset, which is
strictly smaller). -/
theorem relevance_listing_total_counts_unscorable (sim : Memory → ℚ)
    (store : List Memory) (proj : Option String) (tags : List String) (m : Memory)
    (hm : m ∈ dbListMemories store proj tags 10000 0)
    (hemb : embTruthy m = false)
    (huniq : ∀ x ∈ store, x.id = m.id → x = m) :
    (∀ page limit, (listMemoriesRelevance sim store proj tags page limit).2 =
      (dbListMemories store proj tags 10000 0).length) ∧
    (∀ page limit r, r ∈ (listMemoriesRelevance sim store proj tags page limit).1 →
      r.1 ≠ m.id) ∧
    ((dbListMemories store proj tags 10000 0).filter (fun x => embTruthy x)).length <
      (dbListMemories store proj tags 10000 0).length ∧
    (∀ page limit, (listMemoriesRelevance sim store proj tags page limit).1.length ≤
      ((dbListMemories store proj tags 10000 0).filter (fun x => embTruthy x)).length) := by
  refine ⟨fun page limit => rfl, ?_, ?_, ?_⟩
  · intro page limit r hr hid
    rw [listMemoriesRelevance] at hr
    obtain ⟨p, hp, hpr⟩ := List.mem_map.mp hr
    have hp1 := mem_sortDescBy (List.mem_of_mem_drop (List.mem_of_mem_take hp))
    obtain ⟨x, hx, hxp⟩ := List.mem_map.mp hp1
    have hxall := List.mem_of_mem_filter hx
    have hxemb : embTruthy x = true := List.of_mem_filter hx
    have hxs : x ∈ store := (mem_dbListMemories hxall).1
    have hxid : x.id = m.id := by
      rw [← hid, ← hpr, ← hxp]
    have hxm := huniq x hxs hxid
    rw [hxm, hemb] at hxemb
    exact Bool.false_eq_true.mp hxemb
  · exact length_filter_lt _ _ m hm hemb
  · intro page limit
    rw [listMemoriesRelevance]
    calc ((((sortDescBy (fun p : Memory × ℚ => p.2)
          (((dbListMemories store proj tags 10000 0).filter
            (fun m => embTruthy m)).map (fun m => (m, sim m)))).drop
              ((page - 1) * limit)).take limit).map (fun p => (p.1.id, p.2))).length
        ≤ ((sortDescBy (fun p : Memory × ℚ => p.2)
          (((dbListMemories store proj tags 10000 0).filter
            (fun m => embTruthy m)).map (fun m => (m, sim m)))).drop
              ((page - 1) * limit)).length := by
          rw [List.length_map, List.length_take]
          exact min_le_right _ _
      _ ≤ (sortDescBy (fun p : Memory × ℚ => p.2)
          (((dbListMemories store proj tags 10000 0).filter
            (fun m => embTruthy m)).map (fun m => (m, sim m)))).length := by
          rw [List.length_drop]
          exact Nat.sub_le _ _
      _ = ((dbListMemories store proj tags 10000 0).filter
            (fun m => embTruthy m)).length := by
          rw [(sortDescBy_perm _ _).length_eq, List.length_map]

/-- Witness for C9 over a store with one scorable and one unscorable
record. -/
theorem relevance_listing_total_counts_unscorable_witness :
    (∀ page limit,
      (listMemoriesRelevance (fun _ => (0:ℚ)) [mLive, mNoEmb] none [] page limit).2 =
      (dbListMemories [mLive, mNoEmb] none [] 10000 0).length) ∧
    (∀ page limit r,
      r ∈ (listMemoriesRelevance (fun _ => (0:ℚ)) [mLive, mNoEmb] none [] page limit).1 →
      r.1 ≠ mNoEmb.id) ∧
    ((dbListMemories [mLive, mNoEmb] none [] 10000 0).filter
      (fun x => embTruthy x)).length <
      (dbListMemories [mLive, mNoEmb] none [] 10000 0).length ∧
    (∀ page limit,
      (listMemoriesRelevance (fun _ => (0:ℚ)) [mLive, mNoEmb] none [] page limit).1.length ≤
      ((dbListMemories [mLive, mNoEmb] none [] 10000 0).filter
        (fun x => embTruthy x)).length) :=
  relevance_listing_total_counts_unscorable (fun _ => (0:ℚ)) [mLive, mNoEmb] none [] mNoEmb
    (by decide) (by decide) (by decide)

/-! ## Bulk re-embedding (`memory.py` reembed_mismatched) -/

/-- The update a re-embed applies to one record: a fresh embedding computed
from the record's text, and a touched `updated_at` (via
`db.update_embedding`). -/
def fixRec (embedF : String → List ℚ) (now : Int) (m : Memory) : Memory :=
  { m with embedding := some (embedF m.text), updated_at := now }

/-- The aggregate effect of re-embedding the records with the given ids. -/
def applyFixIds (embedF : String → List ℚ) (now : Int) (ids : List String)
    (store : List Memory) : List Memory :=
  store.map (fun m => if ids.contains m.id then fixRec embedF now m else m)

/-- The paged loop of `reembed_mismatched` (source lines 464-491): read a
page of non-archived records at the current offset, re-embed the mismatched
ones (`encode_batch` on their texts, then `update_embedding` each), advance
the offset by the page size, stop on an empty page.  The loop is modelled
with explicit fuel; the entry point supplies more fuel than the loop can
consume, so the fuel case is never the exit taken. -/
def reembedAux (dim : ℕ) (embedF : String → List ℚ) (now : Int) (ps : ℕ) :
    ℕ → List Memory → ℕ → ℕ → ℕ → List Memory × ℕ × ℕ
  | 0, store, _, scanned, reembedded => (store, scanned, reembedded)
  | fuel + 1, store, offset, scanned, reembedded =>
    let page := dbListMemories store none [] ps offset
    if page.isEmpty then (store, scanned, reembedded)
    else
      let needs := page.filter (fun m => !embOk dim m)
      let store' := needs.foldl (fun st m => updateEmbedding st m.id (embedF m.text) now) store
      reembedAux dim embedF now ps fuel store' (offset + ps) (scanned + page.length)
        (reembedded + needs.length)

/-- `reembed_mismatched`: run the paged loop from offset 0; the result is the
final store together with the reported `(scanned, reembedded)` counts. -/
def reembedMismatched (dim : ℕ) (embedF : String → List ℚ) (now : Int) (ps : ℕ)
    (store : List Memory) : List Memory × ℕ × ℕ :=
  reembedAux dim embedF now ps (store.length + 1) store 0 0 0

theorem applyFixIds_nil (embedF : String → List ℚ) (now : Int) (store : List Memory) :
    applyFixIds embedF now [] store = store := by
  simp [applyFixIds]

theorem listFilter_none_nil (store : List Memory) :
    listFilter none [] store = store.filter (fun m => !m.archived) := by
  simp [listFilter, strTruthy]

theorem dbListMemories_none_nil (store : List Memory) (ps offset : ℕ) :
    dbListMemories store none [] ps offset =
      ((getAllMemories store).drop offset).take ps := by
  rw [dbListMemories, listFilter_none_nil, getAllMemories]

theorem filter_map_comm (f : Memory → Memory) (p : Memory → Bool)
    (hp : ∀ a, p (f a) = p a) :
    ∀ l : List Memory, (l.map f).filter p = (l.filter p).map f := by
  intro l
  induction l with
  | nil => rfl
  | cons x xs ih =>
    rw [List.map_cons]
    by_cases hx : p x = true
    · rw [List.filter_cons_of_pos (by rw [hp]; exact hx), List.filter_cons_of_pos hx,
        List.map_cons, ih]
    · rw [List.filter_cons_of_neg (by rw [hp]; simpa using hx),
        List.filter_cons_of_neg (by simpa using hx), ih]

theorem fixIf_archived (embedF : String → List ℚ) (now : Int) (ids : List String)
    (a : Memory) :
    (!(if ids.contains a.id then fixRec embedF now a else a).archived) = (!a.archived) := by
  by_cases h : ids.contains a.id = true
  · rw [if_pos h]
    rfl
  · rw [if_neg h]

theorem fixIf_created (embedF : String → List ℚ) (now : Int) (ids : List String)
    (a : Memory) :
    (if ids.contains a.id then fixRec embedF now a else a).created_at = a.created_at := by
  by_cases h : ids.contains a.id = true
  · rw [if_pos h]
    rfl
  · rw [if_neg h]

theorem fixIf_id (embedF : String → List ℚ) (now : Int) (ids : List String)
    (a : Memory) :
    (if ids.contains a.id then fixRec embedF now a else a).id = a.id := by
  by_cases h : ids.contains a.id = true
  · rw [if_pos h]
    rfl
  · rw [if_neg h]

theorem getAllMemories_applyFixIds (embedF : String → List ℚ) (now : Int)
    (ids : List String) (store : List Memory) :
    getAllMemories (applyFixIds embedF now ids store) =
      (getAllMemories store).map
        (fun m => if ids.contains m.id then fixRec embedF now m else m) := by
  rw [getAllMemories, getAllMemories, applyFixIds,
    filter_map_comm _ _ (fixIf_archived embedF now ids),
    sortDescBy_map _ _ (fixIf_created embedF now ids)]

theorem applyFixIds_map_id (embedF : String → List ℚ) (now : Int)
    (ids : List String) (store : List Memory) :
    (applyFixIds embedF now ids store).map (fun m => m.id) =
      store.map (fun m => m.id) := by
  rw [applyFixIds, List.map_map]
  apply List.map_congr_left
  intro x _
  exact fixIf_id embedF now ids x

theorem applyFixIds_append (embedF : String → List ℚ) (now : Int)
    (ids₁ ids₂ : List String) (store : List Memory) :
    applyFixIds embedF now ids₂ (applyFixIds embedF now ids₁ store) =
      applyFixIds embedF now (ids₁ ++ ids₂) store := by
  rw [applyFixIds, applyFixIds, applyFixIds, List.map_map]
  apply List.map_congr_left
  intro x _
  show (fun m => if ids₂.contains m.id then fixRec embedF now m else m)
      (if ids₁.contains x.id then fixRec embedF now x else x) =
    if (ids₁ ++ ids₂).contains x.id then fixRec embedF now x else x
  have hfid : (fixRec embedF now x).id = x.id := rfl
  have hidem : fixRec embedF now (fixRec embedF now x) = fixRec embedF now x := rfl
  by_cases h1 : x.id ∈ ids₁ <;> by_cases h2 : x.id ∈ ids₂ <;>
    simp [h1, h2, hfid, hidem]

theorem foldl_update_eq (embedF : String → List ℚ) (now : Int) :
    ∀ (needs : List Memory) (store : List Memory),
      (∀ n ∈ needs, ∀ x ∈ store, x.id = n.id → x.text = n.text) →
      needs.foldl (fun st m => updateEmbedding st m.id (embedF m.text) now) store =
        applyFixIds embedF now (needs.map (fun m => m.id)) store := by
  intro needs
  induction needs with
  | nil =>
    intro store _
    rw [List.foldl_nil, List.map_nil, applyFixIds_nil]
  | cons n ns ih =>
    intro store h
    rw [List.foldl_cons]
    have hstep : updateEmbedding store n.id (embedF n.text) now =
        store.map (fun x => if x.id == n.id then fixRec embedF now x else x) := by
      rw [updateEmbedding]
      apply List.map_congr_left
      intro x hx
      by_cases hid : (x.id == n.id) = true
      · rw [if_pos hid, if_pos hid]
        have htext : x.text = n.text :=
          h n (List.mem_cons_self n ns) x hx (by rwa [beq_iff_eq] at hid)
        rw [fixRec, htext]
      · rw [if_neg hid, if_neg hid]
    rw [hstep]
    have h' : ∀ n' ∈ ns, ∀ x ∈
        store.map (fun x => if x.id == n.id then fixRec embedF now x else x),
        x.id = n'.id → x.text = n'.text := by
      intro n' hn' x hx hid
      obtain ⟨y, hy, rfl⟩ := List.mem_map.mp hx
      have hyid : (if (y.id == n.id) = true then fixRec embedF now y else y).id = y.id := by
        by_cases hc : (y.id == n.id) = true <;> simp [hc, fixRec]
      have hytext : (if (y.id == n.id) = true then fixRec embedF now y else y).text =
          y.text := by
        by_cases hc : (y.id == n.id) = true <;> simp [hc, fixRec]
      rw [hytext]
      exact h n' (List.mem_cons_of_mem n hn') y hy (by rwa [hyid] at hid)
    rw [ih _ h']
    rw [applyFixIds, applyFixIds, List.map_map, List.map_cons]
    apply List.map_congr_left
    intro x _
    show (fun m => if (ns.map (fun m => m.id)).contains m.id then fixRec embedF now m else m)
        (if x.id == n.id then fixRec embedF now x else x) =
      if (n.id :: ns.map (fun m => m.id)).contains x.id then fixRec embedF now x else x
    rw [List.contains_cons]
    by_cases h1 : (x.id == n.id) = true
    · rw [if_pos h1]
      have hfid : (fixRec embedF now x).id = x.id := rfl
      have hidem : fixRec embedF now (fixRec embedF now x) = fixRec embedF now x := rfl
      by_cases h2 : ((ns.map (fun m => m.id)).contains x.id) = true <;>
        simp only [hfid, h2, if_true, if_false, Bool.false_eq_true, hidem, h1,
          Bool.true_or]
    · rw [if_neg h1]
      simp only [h1, Bool.false_or]

/-- The paged loop, from any offset: it scans exactly the records of the
sorted non-archived listing from that offset on, re-embeds exactly the
mismatched ones among them, and reports both counts. -/
theorem reembedAux_spec (dim : ℕ) (embedF : String → List ℚ) (now : Int) (ps : ℕ)
    (hps : 1 ≤ ps) :
    ∀ (fuel : ℕ) (store : List Memory) (offset scanned reembedded : ℕ),
      (store.map (fun m => m.id)).Nodup →
      ((getAllMemories store).drop offset).length + 1 ≤ fuel →
      reembedAux dim embedF now ps fuel store offset scanned reembedded =
        (applyFixIds embedF now
          ((((getAllMemories store).drop offset).filter (fun m => !embOk dim m)).map
            (fun m => m.id)) store,
         scanned + ((getAllMemories store).drop offset).length,
         reembedded + (((getAllMemories store).drop offset).filter
            (fun m => !embOk dim m)).length) := by
  intro fuel
  induction fuel with
  | zero =>
    intro store offset sc re _ hfuel
    exact absurd hfuel (by omega)
  | succ fuel ih =>
    intro store offset sc re hid hfuel
    simp only [reembedAux]
    rw [dbListMemories_none_nil]
    by_cases hrest0 : (getAllMemories store).drop offset = []
    · rw [hrest0]
      simp [applyFixIds_nil]
    · set NA := getAllMemories store with hNA_def
      set rest := NA.drop offset with hrest_def
      set page := rest.take ps with hpage_def
      set needs := page.filter (fun m => !embOk dim m) with hneeds_def
      set needsIds := needs.map (fun m => m.id) with hneedsIds_def
      have hpage_ne : page ≠ [] := by
        intro hc
        have hlen := congrArg List.length hc
        rw [hpage_def, List.length_take] at hlen
        have : 1 ≤ rest.length := List.length_pos.mpr hrest0
        simp only [List.length_nil] at hlen
        omega
      have hfalse : ¬(page.isEmpty = true) := by
        simp [List.isEmpty_iff, hpage_ne]
      rw [if_neg hfalse]
      have hmem_rest : ∀ x ∈ rest, x ∈ store ∧ x.archived = false := by
        intro x hx
        exact mem_getAllMemories (List.mem_of_mem_drop hx)
      have hfold : needs.foldl (fun st m => updateEmbedding st m.id (embedF m.text) now)
          store = applyFixIds embedF now needsIds store := by
        rw [hneedsIds_def]
        apply foldl_update_eq
        intro n hn x hx hidm
        have hnst : n ∈ store :=
          (hmem_rest n (List.mem_of_mem_take (List.mem_of_mem_filter hn))).1
        have hxn := List.inj_on_of_nodup_map hid hx hnst hidm
        rw [hxn]
      rw [hfold]
      have hNAids : (NA.map (fun m => m.id)).Nodup := by
        have hperm : NA.Perm (store.filter (fun m => !m.archived)) :=
          sortDescBy_perm (fun m : Memory => m.created_at) _
        have hsub : ((store.filter (fun m => !m.archived)).map (fun m => m.id)).Sublist
            (store.map (fun m => m.id)) := (List.filter_sublist store).map _
        exact ((hperm.map (fun m => m.id)).nodup_iff).mpr (hid.sublist hsub)
      have hrest_ids : (rest.map (fun m => m.id)).Nodup := by
        have hsub : (rest.map (fun m => m.id)).Sublist (NA.map (fun m => m.id)) :=
          (List.drop_sublist offset NA).map _
        exact hNAids.sublist hsub
      have hdisj : ∀ x ∈ rest.drop ps, needsIds.contains x.id = false := by
        intro x hx
        have hx_id : x.id ∈ (rest.drop ps).map (fun m => m.id) :=
          List.mem_map_of_mem _ hx
        have hnodup2 : ((rest.take ps).map (fun m => m.id) ++
            (rest.drop ps).map (fun m => m.id)).Nodup := by
          rw [← List.map_append, List.take_append_drop]
          exact hrest_ids
        have hdisj' := (List.nodup_append.mp hnodup2).2.2
        have hnotin : x.id ∉ (rest.take ps).map (fun m => m.id) :=
          fun hin => hdisj' hin hx_id
        have hsub : needsIds.Sublist (page.map (fun m => m.id)) := by
          rw [hneedsIds_def, hneeds_def]
          exact (List.filter_sublist page).map _
        rcases hc : needsIds.contains x.id with _ | _
        · rfl
        · have hmm : x.id ∈ needsIds := List.elem_iff.mp hc
          rw [hpage_def] at hsub
          exact absurd (hsub.subset hmm) hnotin
      have hdrop' : (getAllMemories (applyFixIds embedF now needsIds store)).drop
          (offset + ps) = rest.drop ps := by
        rw [getAllMemories_applyFixIds, ← hNA_def, ← List.map_drop, ← List.drop_drop,
          ← hrest_def]
        conv_rhs => rw [← List.map_id (rest.drop ps)]
        apply List.map_congr_left
        intro x hx
        rw [hdisj x hx]
        simp
      have hid' : ((applyFixIds embedF now needsIds store).map (fun m => m.id)).Nodup := by
        rw [applyFixIds_map_id]
        exact hid
      have hfuel' : ((getAllMemories (applyFixIds embedF now needsIds store)).drop
          (offset + ps)).length + 1 ≤ fuel := by
        rw [hdrop']
        have h1 : rest.length + 1 ≤ fuel + 1 := hfuel
        have h2 : (rest.drop ps).length = rest.length - ps := List.length_drop ps rest
        have h4 : 1 ≤ rest.length := List.length_pos.mpr hrest0
        omega
      rw [ih _ _ _ _ hid' hfuel', hdrop', applyFixIds_append]
      have hsplit : page ++ rest.drop ps = rest := by
        rw [hpage_def]
        exact List.take_append_drop ps rest
      have hids : needsIds ++ ((rest.drop ps).filter (fun m => !embOk dim m)).map
          (fun m => m.id) = (rest.filter (fun m => !embOk dim m)).map (fun m => m.id) := by
        conv_rhs => rw [← hsplit]
        rw [List.filter_append, List.map_append, hneedsIds_def, hneeds_def]
      have hlens : page.length + (rest.drop ps).length = rest.length := by
        have := congrArg List.length hsplit
        rwa [List.length_append] at this
      have hflens : needs.length + ((rest.drop ps).filter (fun m => !embOk dim m)).length =
          (rest.filter (fun m => !embOk dim m)).length := by
        have := congrArg List.length (congrArg (List.filter (fun m => !embOk dim m)) hsplit)
        rwa [List.filter_append, List.length_append, ← hneeds_def] at this
      simp only [Prod.mk.injEq]
      refine ⟨?_, ?_, ?_⟩
      · rw [hids]
      · omega
      · omega

/-- C8: `reembed_mismatched` reports `scanned` equal to the number of
non-archived records and `reembedded` equal to the number of non-archived
records whose embedding is missing or of the wrong dimension; exactly those
records get a fresh embedding (their text re-encoded, `updated_at`
touched) and every other record is unchanged; re-running immediately
afterwards reports `reembedded = 0`.  Hypotheses: a positive page size, the
primary-key uniqueness of ids, and an encoder producing vectors of the
configured dimension. -/
theorem reembed_mismatched_spec (dim : ℕ) (embedF : String → List ℚ) (now : Int)
    (ps : ℕ) (store : List Memory)
    (hps : 1 ≤ ps)
    (hid : (store.map (fun m => m.id)).Nodup)
    (hdim : ∀ t, (embedF t).length = dim) :
    (reembedMismatched dim embedF now ps store).2.1 =
      (store.filter (fun m => !m.archived)).length ∧
    (reembedMismatched dim embedF now ps store).2.2 =
      ((store.filter (fun m => !m.archived)).filter (fun m => !embOk dim m)).length ∧
    (reembedMismatched dim embedF now ps store).1 =
      store.map (fun m => if !m.archived && !embOk dim m then fixRec embedF now m else m) ∧
    (reembedMismatched dim embedF now ps
      (reembedMismatched dim embedF now ps store).1).2.2 = 0 := by
  have hperm : (getAllMemories store).Perm (store.filter (fun m => !m.archived)) :=
    sortDescBy_perm (fun m : Memory => m.created_at) _
  have hfuel : ((getAllMemories store).drop 0).length + 1 ≤ store.length + 1 := by
    rw [List.drop_zero, hperm.length_eq]
    have := List.length_filter_le (fun m => !m.archived) store
    omega
  have hmain := reembedAux_spec dim embedF now ps hps (store.length + 1) store 0 0 0 hid hfuel
  simp only [List.drop_zero, Nat.zero_add] at hmain
  have hresult : reembedMismatched dim embedF now ps store =
      (applyFixIds embedF now
        (((getAllMemories store).filter (fun m => !embOk dim m)).map (fun m => m.id)) store,
       (getAllMemories store).length,
       ((getAllMemories store).filter (fun m => !embOk dim m)).length) := by
    rw [reembedMismatched, hmain]
  have hmem_NA : ∀ x, x ∈ getAllMemories store ↔ x ∈ store ∧ x.archived = false := by
    intro x
    rw [hperm.mem_iff, List.mem_filter, Bool.not_eq_true']
  have hstore' : applyFixIds embedF now
      (((getAllMemories store).filter (fun m => !embOk dim m)).map (fun m => m.id)) store =
      store.map (fun m => if !m.archived && !embOk dim m then fixRec embedF now m else m) := by
    rw [applyFixIds]
    apply List.map_congr_left
    intro x hx
    by_cases hcond : (!x.archived && !embOk dim x) = true
    · have hxin : x ∈ (getAllMemories store).filter (fun m => !embOk dim m) := by
        rw [List.mem_filter, hmem_NA]
        rw [Bool.and_eq_true] at hcond
        exact ⟨⟨hx, by simpa using hcond.1⟩, hcond.2⟩
      have hcont : (((getAllMemories store).filter (fun m => !embOk dim m)).map
          (fun m => m.id)).contains x.id = true :=
        List.elem_iff.mpr (List.mem_map_of_mem _ hxin)
      rw [if_pos hcont, if_pos hcond]
    · have hcont : (((getAllMemories store).filter (fun m => !embOk dim m)).map
          (fun m => m.id)).contains x.id = false := by
        rcases hc : (((getAllMemories store).filter (fun m => !embOk dim m)).map
            (fun m => m.id)).contains x.id with _ | _
        · exact hc
        · exfalso
          obtain ⟨n, hn, hnid⟩ := List.mem_map.mp (List.elem_iff.mp hc)
          rw [List.mem_filter] at hn
          have hnNA := (hmem_NA n).mp hn.1
          have hnx := List.inj_on_of_nodup_map hid hnNA.1 hx hnid
          apply hcond
          rw [← hnx]
          rw [Bool.and_eq_true]
          exact ⟨by simp [hnNA.2], hn.2⟩
      rw [if_neg (by rw [hcont]; exact Bool.false_ne_true), if_neg (by simpa using hcond)]
  refine ⟨?_, ?_, ?_, ?_⟩
  · rw [hresult, hperm.length_eq]
  · rw [hresult, (hperm.filter (fun m => !embOk dim m)).length_eq]
  · rw [hresult, hstore']
  · rw [hresult]
    set fixIds := ((getAllMemories store).filter (fun m => !embOk dim m)).map
      (fun m => m.id) with hfixIds
    set S := applyFixIds embedF now fixIds store with hS
    have hidS : (S.map (fun m => m.id)).Nodup := by
      rw [hS, applyFixIds_map_id]
      exact hid
    have hpermS : (getAllMemories S).Perm (S.filter (fun m => !m.archived)) :=
      sortDescBy_perm (fun m : Memory => m.created_at) _
    have hfuelS : ((getAllMemories S).drop 0).length + 1 ≤ S.length + 1 := by
      rw [List.drop_zero, hpermS.length_eq]
      have := List.length_filter_le (fun m => !m.archived) S
      omega
    have hmainS := reembedAux_spec dim embedF now ps hps (S.length + 1) S 0 0 0 hidS hfuelS
    simp only [List.drop_zero, Nat.zero_add] at hmainS
    rw [reembedMismatched, hmainS]
    show ((getAllMemories S).filter (fun m => !embOk dim m)).length = 0
    rw [List.length_eq_zero, List.filter_eq_nil_iff]
    intro y hy
    rw [hS, getAllMemories_applyFixIds] at hy
    obtain ⟨n, hn, rfl⟩ := List.mem_map.mp hy
    by_cases hc : fixIds.contains n.id = true
    · rw [if_pos hc]
      simp only [Bool.not_eq_true', Bool.not_eq_false]
      show embOk dim (fixRec embedF now n) = true
      rw [embOk, fixRec]
      simpa using hdim n.text
    · rw [if_neg hc]
      have hnfix : n ∉ (getAllMemories store).filter (fun m => !embOk dim m) := by
        intro hmem
        exact hc (List.elem_iff.mpr (List.mem_map_of_mem _ hmem))
      rw [List.mem_filter] at hnfix
      push_neg at hnfix
      have := hnfix hn
      simpa using this

/-- Witness for C8: page size 1, a two-record store (one valid embedding of
dimension 1, one missing embedding) and a constant dimension-1 encoder. -/
theorem reembed_mismatched_spec_witness :
    (reembedMismatched 1 (fun _ => [0]) 99 1 [mLive, mNoEmb]).2.1 =
      ([mLive, mNoEmb].filter (fun m => !m.archived)).length ∧
    (reembedMismatched 1 (fun _ => [0]) 99 1 [mLive, mNoEmb]).2.2 =
      (([mLive, mNoEmb].filter (fun m => !m.archived)).filter
        (fun m => !embOk 1 m)).length ∧
    (reembedMismatched 1 (fun _ => [0]) 99 1 [mLive, mNoEmb]).1 =
      [mLive, mNoEmb].map
        (fun m => if !m.archived && !embOk 1 m then fixRec (fun _ => [0]) 99 m else m) ∧
    (reembedMismatched 1 (fun _ => [0]) 99 1
      (reembedMismatched 1 (fun _ => [0]) 99 1 [mLive, mNoEmb]).1).2.2 = 0 :=
  reembed_mismatched_spec 1 (fun _ => [0]) 99 1 [mLive, mNoEmb]
    (by decide) (by decide) (fun _ => rfl)

end Cognio
